import Mathlib

/-!
# Stage table and bitstream cache of `MfxEncodeHW::TaskManager`

A shallow embedding of the inline members of `TaskManager`
(`_studio/mfx_lib/encode_hw/shared/ehw_task_manager.h`):

* `std::map` is an association list kept in ascending key order;
* `mfxU16` / `mfxU32` values are natural numbers, reduced modulo `2^16` / `2^32`
  at every place where the C++ code stores into such a variable;
* a method that can throw returns its result as an `Option` together with the
  state it leaves behind; a failed `assert` ends the run (`none`).
-/

namespace MfxEncodeHW

/-! ## `std::map` with integer keys -/

/-- An `std::map<K, V>` with an unsigned integer key type: the (key, value) pairs in
ascending key order. -/
abbrev StdMap (V : Type) := List (Nat × V)

namespace StdMap

/-- `m.size()`. -/
def size {V : Type} (m : StdMap V) : Nat := m.length

/-- `m.find(k)`: the value stored under `k`, `none` standing for `m.end()`.
`m.at(k)` is the same lookup and throws `std::out_of_range` on `none`. -/
def find {V : Type} : StdMap V → Nat → Option V
  | [], _ => none
  | (k', v) :: rest, k => if k = k' then some v else find rest k

/-- The assignment `m[k] = v`: overwrite the value of an existing key, or insert the
pair at its place in key order. -/
def set {V : Type} : StdMap V → Nat → V → StdMap V
  | [], k, v => [(k, v)]
  | (k', v') :: rest, k, v =>
    if k < k' then (k, v) :: (k', v') :: rest
    else if k = k' then (k, v) :: rest
    else (k', v') :: set rest k v

/-- The read `m[k]`: the stored value, and for a missing key a value-initialised
element (`dflt`) is inserted first. Returns the value and the map afterwards. -/
def subscript {V : Type} (dflt : V) (m : StdMap V) (k : Nat) : V × StdMap V :=
  match find m k with
  | some v => (v, m)
  | none => (dflt, set m k dflt)

/-- `m.erase(k)`: drops the element stored under `k`, if there is one. -/
def erase {V : Type} (m : StdMap V) (k : Nat) : StdMap V :=
  m.filter (fun pair => pair.1 ≠ k)

/-- `std::for_each(m.begin(), m.end(), f)` for an `f` that updates `pair.second` from
its old value only. -/
def forEach {V : Type} (f : V → V) (m : StdMap V) : StdMap V :=
  m.map (fun pair => (pair.1, f pair.2))

/-- The keys of the map, in iteration order. -/
def keys {V : Type} (m : StdMap V) : List Nat := m.map Prod.fst

/-- The mapped values, in iteration order. -/
def values {V : Type} (m : StdMap V) : List V := m.map Prod.snd

end StdMap

/-! ## Stage table -/

def S_NEW : Nat := 0
def S_PREPARE : Nat := 1
def S_REORDER : Nat := 2
def S_SUBMIT : Nat := 3
def S_QUERY : Nat := 4

/-- Number of values of `mfxU16`. -/
def U16 : Nat := 65536

/-- Number of values of `mfxU32`. -/
def U32 : Nat := 4294967296

/-- The initialiser of `m_stageID`. -/
def m_stageID_init : StdMap Nat :=
  [(S_NEW, S_NEW), (S_PREPARE, S_PREPARE), (S_REORDER, S_REORDER), (S_SUBMIT, S_SUBMIT),
   (S_QUERY, S_QUERY)]

/-- The lambda `UpdateStage` of `AddStage`, as a function of the old `pair.second`:
`pair.second += (pair.second > idx)` on an `mfxU16`. -/
def UpdateStage (idx : Nat) (second : Nat) : Nat :=
  (second + (if second > idx then 1 else 0)) % U16

/-- `TaskManager::AddStage(stageBefore)` on the member `m_stageID`: the returned symbolic
id (`none` when `m_stageID.at` throws) and `m_stageID` afterwards. -/
def AddStage (m_stageID : StdMap Nat) (stageBefore : Nat) : Option Nat × StdMap Nat :=
  let stageNew := StdMap.size m_stageID % U16
  match StdMap.find m_stageID stageBefore with
  | none => (none, m_stageID)
  | some idx =>
    let updated := StdMap.forEach (UpdateStage idx) m_stageID
    (some stageNew, StdMap.set updated stageNew ((idx + 1) % U16))

/-- `TaskManager::Stage(s)`: `m_stageID.at(s)`, with `m_stageID` afterwards. -/
def Stage (m_stageID : StdMap Nat) (s : Nat) : Option Nat × StdMap Nat :=
  (StdMap.find m_stageID s, m_stageID)

/-- `TaskManager::NextStage(s)`: `Stage(s) + 1` returned as an `mfxU16`. -/
def NextStage (m_stageID : StdMap Nat) (s : Nat) : Option Nat × StdMap Nat :=
  match Stage m_stageID s with
  | (some p, m) => (some ((p + 1) % U16), m)
  | (none, m) => (none, m)

/-- Stage tables that arise from the initial table by successful `AddStage` calls. -/
inductive Reachable : StdMap Nat → Prop
  | init : Reachable m_stageID_init
  | addStage (m : StdMap Nat) (stageBefore stageNew : Nat) :
      Reachable m → (AddStage m stageBefore).1 = some stageNew →
      Reachable (AddStage m stageBefore).2

/-- The table in which the symbolic ids `0 .. n-1` sit at their own positions. -/
def identityTable (n : Nat) : StdMap Nat := (List.range n).map (fun i => (i, i))

/-- The shape of a stage table with `N` stages: the symbolic ids are `0 .. N-1` and the
positions are pairwise different numbers below `N`. -/
def StageInv (m : StdMap Nat) : Prop :=
  StdMap.keys m = List.range (StdMap.size m) ∧ (StdMap.values m).Nodup ∧
    ∀ p ∈ StdMap.values m, p < StdMap.size m

/-! ## Bitstream cache -/

/-- `class CachedBitstream`. `Data` is the shared pointer to the byte buffer, kept as a
handle: copying an entry copies the handle, not the bytes. -/
structure CachedBitstream where
  DisplayOrder : Nat
  BsDataLength : Nat
  Data : Nat
  isHiden : Bool
deriving DecidableEq

/-- The constructor `CachedBitstream(length, pData)`: `buffer` is the handle of the freshly
allocated array of `length` bytes; the other members keep their default initialisers. -/
def CachedBitstream.create (length : Nat) (buffer : Nat) : CachedBitstream :=
  { DisplayOrder := 0, BsDataLength := length, Data := buffer, isHiden := true }

/-- The two private members of `TaskManager` that make up the bitstream cache. -/
structure Cache where
  m_cachedBitstream : StdMap (List CachedBitstream)
  m_outputReady : StdMap Bool
deriving DecidableEq

/-- Both members are initialised with `= {}`. -/
def Cache.initial : Cache := { m_cachedBitstream := [], m_outputReady := [] }

/-- `TaskManager::IsCacheReady(order)`: the value of `m_outputReady[order]` and the cache
afterwards. -/
def IsCacheReady (c : Cache) (order : Nat) : Bool × Cache :=
  let ready := StdMap.subscript false c.m_outputReady order
  (ready.1, { c with m_outputReady := ready.2 })

/-- `TaskManager::PushBitstream(order, bs)` with `assert` compiled in (no `NDEBUG`):
`none` when the assertion `!m_outputReady[order]` fails, else the cache afterwards. The
read `m_outputReady[order]` inside the assertion inserts a `false` entry for a missing
order. -/
def PushBitstream (c : Cache) (order : Nat) (bs : CachedBitstream) : Option Cache :=
  let ready := StdMap.subscript false c.m_outputReady order
  if ready.1 then none
  else
    let queue := StdMap.subscript [] c.m_cachedBitstream order
    let cached := StdMap.set queue.2 order (queue.1 ++ [bs])
    let outputReady := if !bs.isHiden then StdMap.set ready.2 order true else ready.2
    some { m_cachedBitstream := cached, m_outputReady := outputReady }

/-- `TaskManager::GetBitstreams(order)`: the queue `m_cachedBitstream[order]` and the cache
afterwards. -/
def GetBitstreams (c : Cache) (order : Nat) : List CachedBitstream × Cache :=
  let queue := StdMap.subscript [] c.m_cachedBitstream order
  (queue.1, { c with m_cachedBitstream := queue.2 })

/-- `TaskManager::ClearBitstreams(order)`. -/
def ClearBitstreams (c : Cache) (order : Nat) : Cache :=
  { m_cachedBitstream := StdMap.erase c.m_cachedBitstream order,
    m_outputReady := StdMap.erase c.m_outputReady order }

/-- `TaskManager::PeekCachedSize(order) const`; `size` is an `mfxU32`. -/
def PeekCachedSize (c : Cache) (order : Nat) : Nat :=
  match StdMap.find c.m_cachedBitstream order with
  | none => 0
  | some queue => queue.foldl (fun size bs => (size + bs.BsDataLength) % U32) 0

/-- A call of one of the cache methods. -/
inductive CacheCall where
  | PushBitstream (order : Nat) (bs : CachedBitstream)
  | ClearBitstreams (order : Nat)
  | IsCacheReady (order : Nat)
  | PeekCachedSize (order : Nat)
  | GetBitstreams (order : Nat)
deriving DecidableEq

/-- What a call hands back to the caller. -/
inductive CacheResult where
  | done
  | ready (b : Bool)
  | size (n : Nat)
  | queue (q : List CachedBitstream)
deriving DecidableEq

/-- One call on the cache: its result and the cache afterwards, `none` when the
assertion of `PushBitstream` fails. -/
def call (c : Cache) : CacheCall → Option (CacheResult × Cache)
  | .PushBitstream order bs => (PushBitstream c order bs).map (fun c' => (.done, c'))
  | .ClearBitstreams order => some (.done, ClearBitstreams c order)
  | .IsCacheReady order => some (.ready (IsCacheReady c order).1, (IsCacheReady c order).2)
  | .PeekCachedSize order => some (.size (PeekCachedSize c order), c)
  | .GetBitstreams order => some (.queue (GetBitstreams c order).1, (GetBitstreams c order).2)

/-- A sequence of calls: the results in call order and the final cache, `none` when
one of the calls fails its assertion. -/
def run (c : Cache) : List CacheCall → Option (List CacheResult × Cache)
  | [] => some ([], c)
  | x :: rest =>
    match call c x with
    | none => none
    | some (r, c') => (run c' rest).map (fun p => (r :: p.1, p.2))

/-- The call sequence contains `ClearBitstreams(order)`. -/
def clears (order : Nat) (calls : List CacheCall) : Bool :=
  calls.any (fun x => decide (x = .ClearBitstreams order))

/-- A non-hidden entry has been pushed for `order` in `calls` and `ClearBitstreams(order)`
has not been called since. -/
def nonHiddenPushedSinceClear (order : Nat) : List CacheCall → Bool
  | [] => false
  | .PushBitstream o bs :: rest =>
    (decide (o = order) && !bs.isHiden && !clears order rest) ||
      nonHiddenPushedSinceClear order rest
  | _ :: rest => nonHiddenPushedSinceClear order rest

/-- The entries pushed for `order` in `calls` since the last `ClearBitstreams(order)`
(since the start if there is none), in push order. -/
def pushedSinceClear (order : Nat) : List CacheCall → List CachedBitstream
  | [] => []
  | .PushBitstream o bs :: rest =>
    if o = order ∧ clears order rest = false then bs :: pushedSinceClear order rest
    else pushedSinceClear order rest
  | _ :: rest => pushedSinceClear order rest

/-- The readiness flag stored for `order`, an absent entry counting as not ready. -/
def readyFlag (c : Cache) (order : Nat) : Bool :=
  (StdMap.find c.m_outputReady order).getD false

/-- The entry queue stored for `order`, an absent entry counting as empty. -/
def queueOf (c : Cache) (order : Nat) : List CachedBitstream :=
  (StdMap.find c.m_cachedBitstream order).getD []

/-- Two caches that no call can tell apart: equal entry queues, and readiness entries
that differ at most in absent entries against entries holding `false`. -/
def CacheEquiv (c d : Cache) : Prop :=
  c.m_cachedBitstream = d.m_cachedBitstream ∧ ∀ order, readyFlag c order = readyFlag d order

/-- The readiness invariant of the cache: an order is flagged ready exactly when its
queue holds a non-hidden entry. -/
def CacheInv (c : Cache) : Prop :=
  ∀ order, readyFlag c order = (queueOf c order).any (fun e => !e.isHiden)

/-- The readiness flag of `order` after a successful call `x` on the cache `c`. -/
def readyAfter (c : Cache) (order : Nat) : CacheCall → Bool
  | .PushBitstream o bs => if order = o then !bs.isHiden else readyFlag c order
  | .ClearBitstreams o => if order = o then false else readyFlag c order
  | _ => readyFlag c order

/-- The entry queue of `order` after a successful call `x` on the cache `c`. -/
def queueAfter (c : Cache) (order : Nat) : CacheCall → List CachedBitstream
  | .PushBitstream o bs => if order = o then queueOf c order ++ [bs] else queueOf c order
  | .ClearBitstreams o => if order = o then [] else queueOf c order
  | _ => queueOf c order

/-! ## Stage counts -/

/-- The member `max_num_of_stages`, the length of the vector `m_stages`. -/
def max_num_of_stages : Nat := 7

/-- Stage tables that arise from the initial table by exactly `k` successful `AddStage`
calls. -/
inductive ReachableIn : Nat → StdMap Nat → Prop
  | init : ReachableIn 0 m_stageID_init
  | addStage (k : Nat) (m : StdMap Nat) (stageBefore stageNew : Nat) :
      ReachableIn k m → (AddStage m stageBefore).1 = some stageNew →
      ReachableIn (k + 1) (AddStage m stageBefore).2

/-- The five built-in stages resolve to positions in their lifecycle order, `S_NEW`
at position 0. -/
def BuiltinOrder (m : StdMap Nat) : Prop :=
  ∃ p1 p2 p3 p4, (Stage m S_NEW).1 = some 0 ∧ (Stage m S_PREPARE).1 = some p1 ∧
    (Stage m S_REORDER).1 = some p2 ∧ (Stage m S_SUBMIT).1 = some p3 ∧
    (Stage m S_QUERY).1 = some p4 ∧ 0 < p1 ∧ p1 < p2 ∧ p2 < p3 ∧ p3 < p4

/-! ## Task lists and selectors -/

/-- Modelled from the spec: `StorageRW` is declared in
`feature_blocks/mfx_feature_blocks_utils.h`, which is not among the sources. A task is
kept as the address of the object, which is what `FixedTask` compares, and a payload. -/
structure StorageRW where
  addr : Nat
  payload : Nat
deriving DecidableEq

/-- `TTaskList = std::list<StorageRW>`. -/
abbrev TTaskList := List StorageRW

/-- `TFnGetTask = std::function<TTaskIt(TTaskIt, TTaskIt)>`. An iterator is an index into
the list it points into, `l.length` being `l.end()`; the function gets the list together
with the two indices. -/
abbrev TFnGetTask := TTaskList → Nat → Nat → Nat

/-- `TaskManager::FirstTask`. -/
def FirstTask : TFnGetTask := fun _ taskBegin _ => taskBegin

/-- `TaskManager::EndTask`. -/
def EndTask : TFnGetTask := fun _ _ taskEnd => taskEnd

/-- The loop of `std::find_if(first, last, pred)`, with `n` the distance from `first` to
`last`: the first iterator whose element satisfies `pred`, else `last`. -/
def find_if_loop (l : TTaskList) (pred : StorageRW → Bool) : Nat → Nat → Nat
  | 0, first => first
  | n + 1, first =>
    match l.get? first with
    | some task => if pred task then first else find_if_loop l pred n (first + 1)
    | none => find_if_loop l pred n (first + 1)

/-- `std::find_if(first, last, pred)` on iterators into `l`. -/
def find_if (l : TTaskList) (pred : StorageRW → Bool) (first last : Nat) : Nat :=
  find_if_loop l pred (last - first) first

/-- `TaskManager::SimpleCheck(cond)`: `std::bind(std::find_if, _1, _2, cond)`. -/
def SimpleCheck (cond : StorageRW → Bool) : TFnGetTask :=
  fun l taskBegin taskEnd => find_if l cond taskBegin taskEnd

/-- `TaskManager::FixedTask(task)`: `SimpleCheck` of the comparison `&b == pTask`. -/
def FixedTask (task : StorageRW) : TFnGetTask :=
  SimpleCheck (fun b => decide (b.addr = task.addr))

/-- Modelled from the spec: the body of `TaskManager::MoveTask` is not among the sources
(the header only declares it). Following section 4.2 of the specification: `which` scans
the bucket `fromStage` and picks one task; when it returns the end of the bucket nothing
changes and the result is null (`none`); otherwise the task is removed from that bucket and
inserted into the bucket `toStage` at the place `whereFn` picks there, and the moved task
is returned. The state is the vector `m_stages`. -/
def MoveTask (fromStage toStage : Nat) (which whereFn : TFnGetTask)
    (m_stages : List TTaskList) : Option StorageRW × List TTaskList :=
  let source := m_stages.getD fromStage []
  let it := which source 0 source.length
  match source.get? it with
  | none => (none, m_stages)
  | some task =>
    let removed := m_stages.set fromStage (source.take it ++ source.drop (it + 1))
    let target := removed.getD toStage []
    let place := whereFn target 0 target.length
    (some task, removed.set toStage (target.take place ++ task :: target.drop place))

/-- `TaskManager::MoveTaskForward(from, which, where)`, with the `MoveTask` it calls as a
parameter; the argument `from + 1` is passed as an `mfxU16`. -/
def MoveTaskForward {σ ρ : Type}
    (moveTask : Nat → Nat → TFnGetTask → TFnGetTask → σ → ρ × σ)
    (fromStage : Nat) (which whereFn : TFnGetTask) : σ → ρ × σ :=
  moveTask fromStage ((fromStage + 1) % U16) which whereFn

/-- The call `MoveTask(from, to)` with the default arguments of the declaration,
`which = FirstTask` and `where = EndTask`. -/
def MoveTask_defaults {σ ρ : Type}
    (moveTask : Nat → Nat → TFnGetTask → TFnGetTask → σ → ρ × σ)
    (fromStage toStage : Nat) : σ → ρ × σ :=
  moveTask fromStage toStage FirstTask EndTask

/-- The call `MoveTaskForward(from)` with the default arguments of the declaration,
`which = FirstTask` and `where = EndTask`. -/
def MoveTaskForward_defaults {σ ρ : Type}
    (moveTask : Nat → Nat → TFnGetTask → TFnGetTask → σ → ρ × σ)
    (fromStage : Nat) : σ → ρ × σ :=
  MoveTaskForward moveTask fromStage FirstTask EndTask

/-- In every queue of the cache all entries before the last one are hidden. -/
def HiddenBeforeLast (c : Cache) : Prop :=
  ∀ order, ∀ e ∈ (queueOf c order).dropLast, e.isHiden = true

/-! ## Lemmas on `std::map` -/

namespace StdMap

theorem find_set {V : Type} (m : StdMap V) (k j : Nat) (v : V) :
    find (set m k v) j = if j = k then some v else find m j := by
  induction m with
  | nil => simp [set, find]
  | cons hd tl ih =>
    obtain ⟨k', v'⟩ := hd
    by_cases h1 : k < k'
    · by_cases hj : j = k
      · simp [set, find, h1, hj]
      · simp [set, find, h1, hj]
    · by_cases h2 : k = k'
      · subst h2
        by_cases hj : j = k
        · simp [set, find, hj]
        · simp [set, find, hj]
      · by_cases hj : j = k'
        · have hjk : j ≠ k := fun h => h2 (h ▸ hj)
          subst hj
          simp [set, find, h1, h2, hjk]
        · simp [set, find, h1, h2, hj, ih]


theorem find_forEach {V : Type} (f : V → V) (m : StdMap V) (j : Nat) :
    find (forEach f m) j = (find m j).map f := by
  induction m with
  | nil => simp [forEach, find]
  | cons hd tl ih =>
    obtain ⟨k', v'⟩ := hd
    have ih' : find (List.map (fun pair => (pair.1, f pair.2)) tl) j = (find tl j).map f := ih
    by_cases hj : j = k'
    · simp [forEach, find, hj]
    · simp [forEach, find, hj, ih']

theorem keys_forEach {V : Type} (f : V → V) (m : StdMap V) :
    keys (forEach f m) = keys m := by
  simp [keys, forEach, List.map_map, Function.comp_def]

theorem values_forEach {V : Type} (f : V → V) (m : StdMap V) :
    values (forEach f m) = (values m).map f := by
  simp [values, forEach, List.map_map, Function.comp_def]

theorem size_forEach {V : Type} (f : V → V) (m : StdMap V) :
    size (forEach f m) = size m := by
  simp [size, forEach]

theorem set_eq_append {V : Type} (m : StdMap V) (k : Nat) (v : V)
    (h : ∀ k' ∈ keys m, k' < k) : set m k v = m ++ [(k, v)] := by
  induction m with
  | nil => simp [set]
  | cons hd tl ih =>
    obtain ⟨k', v'⟩ := hd
    have hk' : k' < k := h k' (by simp [keys])
    have htl : ∀ k'' ∈ keys tl, k'' < k := by
      intro k'' hk''
      apply h
      simp only [keys, List.map_cons, List.mem_cons]
      exact Or.inr hk''
    have h1 : ¬ k < k' := by omega
    have h2 : ¬ k = k' := by omega
    simp [set, h1, h2, ih htl]

theorem find_eq_none_iff {V : Type} (m : StdMap V) (k : Nat) :
    find m k = none ↔ k ∉ keys m := by
  induction m with
  | nil => simp [find, keys]
  | cons hd tl ih =>
    obtain ⟨k', v'⟩ := hd
    by_cases hk : k = k'
    · simp [find, keys, hk]
    · have ih' : find tl k = none ↔ k ∉ List.map Prod.fst tl := ih
      simp [find, keys, hk, ih']

theorem mem_values_of_find {V : Type} (m : StdMap V) (k : Nat) (v : V)
    (h : find m k = some v) : v ∈ values m := by
  induction m with
  | nil => simp [find] at h
  | cons hd tl ih =>
    obtain ⟨k', v'⟩ := hd
    by_cases hk : k = k'
    · simp [find, hk] at h
      simp [values, h]
    · simp only [find, hk, if_false] at h
      have := ih h
      simp only [values, List.map_cons, List.mem_cons]
      exact Or.inr this


theorem find_of_mem {V : Type} (m : StdMap V) (k : Nat) (v : V)
    (hnd : (keys m).Nodup) (h : (k, v) ∈ m) : find m k = some v := by
  induction m with
  | nil => simp at h
  | cons hd tl ih =>
    obtain ⟨k', v'⟩ := hd
    simp only [keys, List.map_cons, List.nodup_cons] at hnd
    rcases List.mem_cons.1 h with heq | hmem
    · cases heq
      simp [find]
    · have hne : k ≠ k' := by
        intro hk
        apply hnd.1
        rw [← hk]
        exact List.mem_map_of_mem Prod.fst hmem
      simp only [find, hne, if_false]
      exact ih hnd.2 hmem

theorem exists_find_of_mem_values {V : Type} (m : StdMap V) (v : V)
    (hnd : (keys m).Nodup) (h : v ∈ values m) : ∃ k, find m k = some v := by
  simp only [values, List.mem_map] at h
  obtain ⟨⟨k, v'⟩, hmem, hv⟩ := h
  simp only at hv
  subst hv
  exact ⟨k, find_of_mem m k v' hnd hmem⟩

theorem find_inj {V : Type} (m : StdMap V) (a b : Nat) (v : V)
    (hnd : (values m).Nodup) (ha : find m a = some v) (hb : find m b = some v) : a = b := by
  induction m with
  | nil => simp [find] at ha
  | cons hd tl ih =>
    obtain ⟨k', v'⟩ := hd
    simp only [values, List.map_cons, List.nodup_cons] at hnd
    by_cases hak : a = k'
    · by_cases hbk : b = k'
      · rw [hak, hbk]
      · simp only [find, hak, if_true, Option.some.injEq] at ha
        simp only [find, hbk, if_false] at hb
        exact absurd (ha ▸ mem_values_of_find tl b v hb) hnd.1
    · by_cases hbk : b = k'
      · simp only [find, hbk, if_true, Option.some.injEq] at hb
        simp only [find, hak, if_false] at ha
        exact absurd (hb ▸ mem_values_of_find tl a v ha) hnd.1
      · simp only [find, hak, hbk, if_false] at ha hb
        exact ih hnd.2 ha hb

theorem size_set_le {V : Type} (m : StdMap V) (k : Nat) (v : V) :
    size m ≤ size (set m k v) := by
  induction m with
  | nil => simp [set, size]
  | cons hd tl ih =>
    obtain ⟨k', v'⟩ := hd
    simp only [size] at ih
    by_cases h1 : k < k'
    · simp [set, size, h1]
    · by_cases h2 : k = k'
      · simp [set, size, h2]
      · simp [set, size, h1, h2, ih]


theorem erase_cons {V : Type} (k' : Nat) (v' : V) (tl : StdMap V) (k : Nat) :
    erase ((k', v') :: tl) k = if k' = k then erase tl k else (k', v') :: erase tl k := by
  unfold erase
  by_cases hk : k' = k
  · simp [List.filter_cons, hk]
  · simp [List.filter_cons, hk]

theorem find_erase {V : Type} (m : StdMap V) (k j : Nat) :
    find (erase m k) j = if j = k then none else find m j := by
  induction m with
  | nil => simp [erase, find]
  | cons hd tl ih =>
    obtain ⟨k', v'⟩ := hd
    rw [erase_cons]
    by_cases hk : k' = k
    · rw [if_pos hk, ih]
      by_cases hj : j = k
      · simp [hj]
      · have hjk' : j ≠ k' := by rw [hk]; exact hj
        simp [find, hj, hjk']
    · rw [if_neg hk]
      by_cases hj : j = k'
      · have hjk : j ≠ k := by rw [hj]; exact hk
        simp [find, hj, hk]
      · simp [find, hj, ih]

theorem erase_eq_self {V : Type} (m : StdMap V) (k : Nat) (h : find m k = none) :
    erase m k = m := by
  rw [find_eq_none_iff] at h
  unfold erase
  rw [List.filter_eq_self]
  intro pair hpair
  have : pair.1 ∈ keys m := List.mem_map_of_mem Prod.fst hpair
  have hne : pair.1 ≠ k := fun hk => h (hk ▸ this)
  simp [hne]

theorem subscript_fst {V : Type} (dflt : V) (m : StdMap V) (k : Nat) :
    (subscript dflt m k).1 = (find m k).getD dflt := by
  unfold subscript
  cases find m k <;> rfl

theorem find_subscript {V : Type} (dflt : V) (m : StdMap V) (k j : Nat) :
    find (subscript dflt m k).2 j =
      if j = k then some ((find m k).getD dflt) else find m j := by
  unfold subscript
  cases h : find m k with
  | none => simp [find_set]
  | some v =>
    by_cases hj : j = k
    · simp [hj, h]
    · simp [hj]

theorem subscript_snd_of_find {V : Type} (dflt : V) (m : StdMap V) (k : Nat) (v : V)
    (h : find m k = some v) : (subscript dflt m k).2 = m := by
  simp [subscript, h]

end StdMap

/-! ## Lemmas on the stage table -/

theorem AddStage_of_find (m : StdMap Nat) (X idx : Nat) (h : StdMap.find m X = some idx) :
    AddStage m X = (some (StdMap.size m % U16),
      StdMap.set (StdMap.forEach (UpdateStage idx) m) (StdMap.size m % U16) ((idx + 1) % U16)) := by
  simp [AddStage, h]

theorem AddStage_of_none (m : StdMap Nat) (X : Nat) (h : StdMap.find m X = none) :
    AddStage m X = (none, m) := by
  simp [AddStage, h]

theorem find_AddStage (m : StdMap Nat) (X idx j : Nat) (h : StdMap.find m X = some idx) :
    StdMap.find (AddStage m X).2 j =
      if j = StdMap.size m % U16 then some ((idx + 1) % U16)
      else (StdMap.find m j).map (UpdateStage idx) := by
  rw [AddStage_of_find m X idx h]
  simp only [StdMap.find_set, StdMap.find_forEach]

theorem size_le_AddStage (m : StdMap Nat) (X : Nat) :
    StdMap.size m ≤ StdMap.size (AddStage m X).2 := by
  cases h : StdMap.find m X with
  | none => rw [AddStage_of_none m X h]
  | some idx =>
    rw [AddStage_of_find m X idx h]
    calc StdMap.size m = StdMap.size (StdMap.forEach (UpdateStage idx) m) :=
          (StdMap.size_forEach _ m).symm
      _ ≤ _ := StdMap.size_set_le _ _ _

theorem UpdateStage_eq (idx p : Nat) (hp : p + 1 < U16) :
    UpdateStage idx p = if p > idx then p + 1 else p := by
  unfold UpdateStage
  unfold U16 at *
  split_ifs
  · exact Nat.mod_eq_of_lt hp
  · exact Nat.mod_eq_of_lt (by omega)

theorem AddStage_eq_append (m : StdMap Nat) (X idx : Nat) (hinv : StageInv m)
    (hsize : StdMap.size m < U16) (h : StdMap.find m X = some idx) :
    AddStage m X = (some (StdMap.size m),
      StdMap.forEach (UpdateStage idx) m ++ [(StdMap.size m, idx + 1)]) := by
  have hidx : idx < StdMap.size m := hinv.2.2 idx (StdMap.mem_values_of_find m X idx h)
  have h1 : StdMap.size m % U16 = StdMap.size m := Nat.mod_eq_of_lt hsize
  have h2 : (idx + 1) % U16 = idx + 1 := Nat.mod_eq_of_lt (by omega)
  rw [AddStage_of_find m X idx h, h1, h2]
  congr 1
  apply StdMap.set_eq_append
  intro k hk
  rw [StdMap.keys_forEach, hinv.1] at hk
  exact List.mem_range.1 hk

theorem Stage_fst (m : StdMap Nat) (s : Nat) : (Stage m s).1 = StdMap.find m s := rfl

theorem Stage_snd (m : StdMap Nat) (s : Nat) : (Stage m s).2 = m := rfl

theorem NextStage_fst (m : StdMap Nat) (s : Nat) :
    (NextStage m s).1 = (StdMap.find m s).map (fun p => (p + 1) % U16) := by
  unfold NextStage Stage
  cases StdMap.find m s <;> rfl

theorem NextStage_snd (m : StdMap Nat) (s : Nat) : (NextStage m s).2 = m := by
  unfold NextStage Stage
  cases StdMap.find m s <;> rfl

theorem StageInv_init : StageInv m_stageID_init := by
  refine ⟨by decide, by decide, by decide⟩

theorem StageInv_AddStage (m : StdMap Nat) (X idx : Nat) (hinv : StageInv m)
    (hsize : StdMap.size m < U16) (h : StdMap.find m X = some idx) :
    StageInv (AddStage m X).2 ∧ StdMap.size (AddStage m X).2 = StdMap.size m + 1 := by
  have hidx : idx < StdMap.size m := hinv.2.2 idx (StdMap.mem_values_of_find m X idx h)
  rw [AddStage_eq_append m X idx hinv hsize h]
  have hsz : StdMap.size (StdMap.forEach (UpdateStage idx) m ++ [(StdMap.size m, idx + 1)])
      = StdMap.size m + 1 := by
    simp [StdMap.size, StdMap.forEach]
  have hupd : ∀ p ∈ StdMap.values m, UpdateStage idx p = if p > idx then p + 1 else p := by
    intro p hp
    exact UpdateStage_eq idx p (by have := hinv.2.2 p hp; omega)
  have hvals : StdMap.values (StdMap.forEach (UpdateStage idx) m ++ [(StdMap.size m, idx + 1)])
      = (StdMap.values m).map (UpdateStage idx) ++ [idx + 1] := by
    have := StdMap.values_forEach (UpdateStage idx) m
    simp only [StdMap.values] at this ⊢
    simp [this]
  have hkeys : StdMap.keys (StdMap.forEach (UpdateStage idx) m ++ [(StdMap.size m, idx + 1)])
      = StdMap.keys m ++ [StdMap.size m] := by
    have := StdMap.keys_forEach (UpdateStage idx) m
    simp only [StdMap.keys] at this ⊢
    simp [this]
  refine ⟨⟨?_, ?_, ?_⟩, hsz⟩
  · rw [hsz, hkeys, hinv.1, List.range_succ]
  · rw [hvals]
    apply List.Nodup.append
    · apply List.Nodup.map_on _ hinv.2.1
      intro a ha b hb hab
      rw [hupd a ha, hupd b hb] at hab
      split_ifs at hab <;> omega
    · simp
    · intro q hq1 hq2
      simp only [List.mem_singleton] at hq2
      obtain ⟨p, hp, hpq⟩ := List.mem_map.1 hq1
      rw [hupd p hp] at hpq
      split_ifs at hpq <;> omega
  · intro q hq
    rw [hvals] at hq
    rw [hsz]
    rcases List.mem_append.1 hq with hq1 | hq2
    · obtain ⟨p, hp, hpq⟩ := List.mem_map.1 hq1
      rw [hupd p hp] at hpq
      have := hinv.2.2 p hp
      split_ifs at hpq <;> omega
    · simp only [List.mem_singleton] at hq2
      omega

theorem Reachable_inv (m : StdMap Nat) (hr : Reachable m) :
    StdMap.size m < U16 → StageInv m := by
  induction hr with
  | init => intro _; exact StageInv_init
  | addStage m X n _ hres ih =>
    intro hsize
    have hle := size_le_AddStage m X
    have hm : StdMap.size m < U16 := lt_of_le_of_lt hle hsize
    cases hf : StdMap.find m X with
    | none => rw [AddStage_of_none m X hf] at hres; simp at hres
    | some idx => exact (StageInv_AddStage m X idx (ih hm) hm hf).1

/-! ## The identity tables -/

theorem identityTable_succ (n : Nat) :
    identityTable (n + 1) = identityTable n ++ [(n, n)] := by
  simp [identityTable, List.range_succ]

theorem size_identityTable (n : Nat) : StdMap.size (identityTable n) = n := by
  simp [StdMap.size, identityTable]

theorem keys_identityTable (n : Nat) : StdMap.keys (identityTable n) = List.range n := by
  simp [StdMap.keys, identityTable, List.map_map, Function.comp_def]

theorem values_identityTable (n : Nat) : StdMap.values (identityTable n) = List.range n := by
  simp [StdMap.values, identityTable, List.map_map, Function.comp_def]

theorem StageInv_identityTable (n : Nat) : StageInv (identityTable n) := by
  refine ⟨?_, ?_, ?_⟩
  · rw [keys_identityTable, size_identityTable]
  · rw [values_identityTable]; exact List.nodup_range n
  · intro p hp
    rw [values_identityTable] at hp
    rw [size_identityTable]
    exact List.mem_range.1 hp

theorem find_identityTable (n k : Nat) (hk : k < n) :
    StdMap.find (identityTable n) k = some k := by
  apply StdMap.find_of_mem
  · rw [keys_identityTable]; exact List.nodup_range n
  · simp only [identityTable, List.mem_map, List.mem_range]
    exact ⟨k, hk, rfl⟩

theorem find_identityTable_none (n k : Nat) (hk : n ≤ k) :
    StdMap.find (identityTable n) k = none := by
  rw [StdMap.find_eq_none_iff, keys_identityTable, List.mem_range]
  omega

theorem m_stageID_init_eq : m_stageID_init = identityTable 5 := by
  decide

theorem AddStage_identityTable (n : Nat) (h1 : 0 < n) (h2 : n < U16) :
    AddStage (identityTable n) (n - 1) = (some n, identityTable (n + 1)) := by
  have hf : StdMap.find (identityTable n) (n - 1) = some (n - 1) :=
    find_identityTable n (n - 1) (by omega)
  have hsz : StdMap.size (identityTable n) < U16 := by rw [size_identityTable]; exact h2
  rw [AddStage_eq_append _ _ _ (StageInv_identityTable n) hsz hf, size_identityTable,
    identityTable_succ]
  have hn : n - 1 + 1 = n := by omega
  rw [hn]
  congr 2
  unfold StdMap.forEach
  conv_rhs => rw [← List.map_id (identityTable n)]
  apply List.map_congr_left
  intro pair hpair
  simp only [identityTable, List.mem_map, List.mem_range] at hpair
  obtain ⟨i, hi, rfl⟩ := hpair
  simp only [id]
  rw [UpdateStage_eq _ _ (by omega)]
  have : ¬ i > n - 1 := by omega
  simp [this]

theorem Reachable_identityTable (n : Nat) (h5 : 5 ≤ n) (hn : n ≤ U16) :
    Reachable (identityTable n) := by
  induction n, h5 using Nat.le_induction with
  | base => rw [← m_stageID_init_eq]; exact Reachable.init
  | succ k hk ih =>
    have hk16 : k < U16 := by omega
    have hstep := AddStage_identityTable k (by omega) hk16
    have := Reachable.addStage (identityTable k) (k - 1) k (ih (by omega)) (by rw [hstep])
    rw [hstep] at this
    exact this

theorem values_perm_range (m : StdMap Nat) (hinv : StageInv m) :
    (StdMap.values m).Perm (List.range (StdMap.size m)) := by
  apply List.Subperm.perm_of_length_le
  · apply List.subperm_of_subset hinv.2.1
    intro p hp
    exact List.mem_range.2 (hinv.2.2 p hp)
  · simp [StdMap.values, StdMap.size]

/-! ## Lemmas on the cache -/

theorem IsCacheReady_fst (c : Cache) (o : Nat) : (IsCacheReady c o).1 = readyFlag c o := by
  simp [IsCacheReady, readyFlag, StdMap.subscript_fst]

theorem IsCacheReady_cached (c : Cache) (o : Nat) :
    (IsCacheReady c o).2.m_cachedBitstream = c.m_cachedBitstream := rfl

theorem find_ready_IsCacheReady (c : Cache) (o j : Nat) :
    StdMap.find (IsCacheReady c o).2.m_outputReady j =
      if j = o then some (readyFlag c o) else StdMap.find c.m_outputReady j := by
  simp [IsCacheReady, readyFlag, StdMap.find_subscript]

theorem readyFlag_IsCacheReady (c : Cache) (o j : Nat) :
    readyFlag (IsCacheReady c o).2 j = readyFlag c j := by
  unfold readyFlag
  rw [find_ready_IsCacheReady]
  by_cases hj : j = o
  · simp [hj, readyFlag]
  · simp [hj]

theorem GetBitstreams_fst (c : Cache) (o : Nat) : (GetBitstreams c o).1 = queueOf c o := by
  simp [GetBitstreams, queueOf, StdMap.subscript_fst]

theorem GetBitstreams_ready (c : Cache) (o : Nat) :
    (GetBitstreams c o).2.m_outputReady = c.m_outputReady := rfl

theorem find_cached_GetBitstreams (c : Cache) (o j : Nat) :
    StdMap.find (GetBitstreams c o).2.m_cachedBitstream j =
      if j = o then some (queueOf c o) else StdMap.find c.m_cachedBitstream j := by
  simp [GetBitstreams, queueOf, StdMap.find_subscript]

theorem queueOf_GetBitstreams (c : Cache) (o j : Nat) :
    queueOf (GetBitstreams c o).2 j = queueOf c j := by
  unfold queueOf
  rw [find_cached_GetBitstreams]
  by_cases hj : j = o
  · simp [hj, queueOf]
  · simp [hj]

theorem PushBitstream_eq_none_iff (c : Cache) (o : Nat) (e : CachedBitstream) :
    PushBitstream c o e = none ↔ readyFlag c o = true := by
  unfold PushBitstream
  simp only [StdMap.subscript_fst]
  unfold readyFlag
  cases (StdMap.find c.m_outputReady o).getD false <;> simp

theorem PushBitstream_of_not_ready (c : Cache) (o : Nat) (e : CachedBitstream)
    (h : readyFlag c o = false) :
    PushBitstream c o e = some
      { m_cachedBitstream :=
          StdMap.set (StdMap.subscript [] c.m_cachedBitstream o).2 o (queueOf c o ++ [e]),
        m_outputReady :=
          if e.isHiden = true then (StdMap.subscript false c.m_outputReady o).2
          else StdMap.set (StdMap.subscript false c.m_outputReady o).2 o true } := by
  unfold readyFlag at h
  unfold PushBitstream queueOf
  simp only [StdMap.subscript_fst, h]
  cases e.isHiden <;> simp

theorem not_ready_of_PushBitstream (c c' : Cache) (o : Nat) (e : CachedBitstream)
    (h : PushBitstream c o e = some c') : readyFlag c o = false := by
  cases hr : readyFlag c o with
  | false => rfl
  | true =>
    rw [(PushBitstream_eq_none_iff c o e).2 hr] at h
    cases h

theorem find_cached_PushBitstream (c c' : Cache) (o j : Nat) (e : CachedBitstream)
    (h : PushBitstream c o e = some c') :
    StdMap.find c'.m_cachedBitstream j =
      if j = o then some (queueOf c o ++ [e]) else StdMap.find c.m_cachedBitstream j := by
  have hr := not_ready_of_PushBitstream c c' o e h
  rw [PushBitstream_of_not_ready c o e hr, Option.some.injEq] at h
  subst h
  simp only [StdMap.find_set, StdMap.find_subscript]
  by_cases hj : j = o
  · simp [hj]
  · simp [hj]

theorem find_ready_PushBitstream (c c' : Cache) (o j : Nat) (e : CachedBitstream)
    (h : PushBitstream c o e = some c') :
    StdMap.find c'.m_outputReady j =
      if j = o then some (!e.isHiden) else StdMap.find c.m_outputReady j := by
  have hr := not_ready_of_PushBitstream c c' o e h
  rw [PushBitstream_of_not_ready c o e hr, Option.some.injEq] at h
  subst h
  unfold readyFlag at hr
  by_cases hh : e.isHiden = true
  · by_cases hj : j = o
    · simp [hh, hj, StdMap.find_subscript, hr]
    · simp [hh, hj, StdMap.find_subscript]
  · by_cases hj : j = o
    · simp [hh, hj, StdMap.find_set]
    · simp [hh, hj, StdMap.find_set, StdMap.find_subscript]

theorem queueOf_PushBitstream (c c' : Cache) (o j : Nat) (e : CachedBitstream)
    (h : PushBitstream c o e = some c') :
    queueOf c' j = if j = o then queueOf c o ++ [e] else queueOf c j := by
  unfold queueOf
  rw [find_cached_PushBitstream c c' o j e h]
  by_cases hj : j = o
  · simp [hj, queueOf]
  · simp [hj]

theorem readyFlag_PushBitstream (c c' : Cache) (o j : Nat) (e : CachedBitstream)
    (h : PushBitstream c o e = some c') :
    readyFlag c' j = if j = o then !e.isHiden else readyFlag c j := by
  unfold readyFlag
  rw [find_ready_PushBitstream c c' o j e h]
  by_cases hj : j = o
  · simp [hj]
  · simp [hj]

theorem queueOf_ClearBitstreams (c : Cache) (o j : Nat) :
    queueOf (ClearBitstreams c o) j = if j = o then [] else queueOf c j := by
  unfold queueOf ClearBitstreams
  simp only [StdMap.find_erase]
  by_cases hj : j = o
  · simp [hj]
  · simp [hj]

theorem readyFlag_ClearBitstreams (c : Cache) (o j : Nat) :
    readyFlag (ClearBitstreams c o) j = if j = o then false else readyFlag c j := by
  unfold readyFlag ClearBitstreams
  simp only [StdMap.find_erase]
  by_cases hj : j = o
  · simp [hj]
  · simp [hj]

theorem foldl_size (q : List CachedBitstream) (a : Nat) :
    q.foldl (fun size bs => (size + bs.BsDataLength) % U32) (a % U32) =
      (a + (q.map CachedBitstream.BsDataLength).sum) % U32 := by
  induction q generalizing a with
  | nil => simp
  | cons b t ih =>
    simp only [List.foldl_cons, List.map_cons, List.sum_cons]
    rw [ih (a % U32 + b.BsDataLength)]
    rw [← add_assoc, Nat.add_mod (a % U32 + b.BsDataLength), Nat.add_mod (a % U32),
      Nat.mod_mod, ← Nat.add_mod a, ← Nat.add_mod]

theorem PeekCachedSize_eq (c : Cache) (o : Nat) :
    PeekCachedSize c o = ((queueOf c o).map CachedBitstream.BsDataLength).sum % U32 := by
  have h0 : ∀ q : List CachedBitstream,
      q.foldl (fun size bs => (size + bs.BsDataLength) % U32) 0 =
        (q.map CachedBitstream.BsDataLength).sum % U32 := by
    intro q
    have := foldl_size q 0
    simpa using this
  unfold PeekCachedSize queueOf
  cases StdMap.find c.m_cachedBitstream o with
  | none => simp
  | some q => simp [h0]

theorem run_cons_some (c c' : Cache) (x : CacheCall) (rest : List CacheCall)
    (res : List CacheResult) (h : run c (x :: rest) = some (res, c')) :
    ∃ r c1 res', call c x = some (r, c1) ∧ run c1 rest = some (res', c') ∧ res = r :: res' := by
  unfold run at h
  cases hc : call c x with
  | none => simp [hc] at h
  | some rc =>
    obtain ⟨r, c1⟩ := rc
    simp only [hc] at h
    cases hr : run c1 rest with
    | none => simp [hr] at h
    | some p =>
      obtain ⟨res', c2⟩ := p
      simp only [hr, Option.map_some', Option.some.injEq, Prod.mk.injEq] at h
      exact ⟨r, c1, res', rfl, by rw [← h.2, hr], h.1.symm⟩

theorem readyFlag_call (c c' : Cache) (x : CacheCall) (r : CacheResult) (o : Nat)
    (h : call c x = some (r, c')) : readyFlag c' o = readyAfter c o x := by
  cases x with
  | PushBitstream o' e =>
    simp only [call, Option.map_eq_some', Prod.mk.injEq] at h
    obtain ⟨c1, hp, -, rfl⟩ := h
    exact readyFlag_PushBitstream c c1 o' o e hp
  | ClearBitstreams o' =>
    simp only [call, Option.some.injEq, Prod.mk.injEq] at h
    obtain ⟨-, rfl⟩ := h
    exact readyFlag_ClearBitstreams c o' o
  | IsCacheReady o' =>
    simp only [call, Option.some.injEq, Prod.mk.injEq] at h
    obtain ⟨-, rfl⟩ := h
    exact readyFlag_IsCacheReady c o' o
  | PeekCachedSize o' =>
    simp only [call, Option.some.injEq, Prod.mk.injEq] at h
    obtain ⟨-, rfl⟩ := h
    rfl
  | GetBitstreams o' =>
    simp only [call, Option.some.injEq, Prod.mk.injEq] at h
    obtain ⟨-, rfl⟩ := h
    rfl

theorem queueOf_call (c c' : Cache) (x : CacheCall) (r : CacheResult) (o : Nat)
    (h : call c x = some (r, c')) : queueOf c' o = queueAfter c o x := by
  cases x with
  | PushBitstream o' e =>
    simp only [call, Option.map_eq_some', Prod.mk.injEq] at h
    obtain ⟨c1, hp, -, rfl⟩ := h
    have := queueOf_PushBitstream c c1 o' o e hp
    rw [this]
    by_cases ho : o = o'
    · simp [queueAfter, ho]
    · simp [queueAfter, ho]
  | ClearBitstreams o' =>
    simp only [call, Option.some.injEq, Prod.mk.injEq] at h
    obtain ⟨-, rfl⟩ := h
    exact queueOf_ClearBitstreams c o' o
  | IsCacheReady o' =>
    simp only [call, Option.some.injEq, Prod.mk.injEq] at h
    obtain ⟨-, rfl⟩ := h
    rfl
  | PeekCachedSize o' =>
    simp only [call, Option.some.injEq, Prod.mk.injEq] at h
    obtain ⟨-, rfl⟩ := h
    rfl
  | GetBitstreams o' =>
    simp only [call, Option.some.injEq, Prod.mk.injEq] at h
    obtain ⟨-, rfl⟩ := h
    exact queueOf_GetBitstreams c o' o

theorem not_ready_of_call_push (c c' : Cache) (o : Nat) (e : CachedBitstream)
    (r : CacheResult) (h : call c (.PushBitstream o e) = some (r, c')) :
    readyFlag c o = false := by
  simp only [call, Option.map_eq_some', Prod.mk.injEq] at h
  obtain ⟨c1, hp, -, -⟩ := h
  exact not_ready_of_PushBitstream c c1 o e hp

theorem CacheInv_initial : CacheInv Cache.initial := by
  intro o
  simp [readyFlag, queueOf, Cache.initial, StdMap.find]

theorem CacheInv_call (c c' : Cache) (x : CacheCall) (r : CacheResult)
    (hinv : CacheInv c) (h : call c x = some (r, c')) : CacheInv c' := by
  intro o
  rw [readyFlag_call c c' x r o h, queueOf_call c c' x r o h]
  cases x with
  | PushBitstream o' e =>
    by_cases ho : o = o'
    · subst ho
      have hnr := not_ready_of_call_push c c' o e r h
      have hq := hinv o
      rw [hnr] at hq
      simp only [readyAfter, queueAfter, if_true, List.any_append, ← hq]
      simp
    · simp only [readyAfter, queueAfter, if_neg ho]
      exact hinv o
  | ClearBitstreams o' =>
    by_cases ho : o = o'
    · simp [readyAfter, queueAfter, ho]
    · simp only [readyAfter, queueAfter, if_neg ho]
      exact hinv o
  | IsCacheReady o' => exact hinv o
  | PeekCachedSize o' => exact hinv o
  | GetBitstreams o' => exact hinv o

theorem CacheInv_run (calls : List CacheCall) (c c' : Cache) (res : List CacheResult)
    (hinv : CacheInv c) (h : run c calls = some (res, c')) : CacheInv c' := by
  induction calls generalizing c res with
  | nil =>
    simp only [run, Option.some.injEq, Prod.mk.injEq] at h
    rw [← h.2]
    exact hinv
  | cons x rest ih =>
    obtain ⟨r, c1, res', hc, hr, -⟩ := run_cons_some c c' x rest res h
    exact ih c1 res' (CacheInv_call c c1 x r hinv hc) hr

theorem clears_cons (o : Nat) (x : CacheCall) (rest : List CacheCall) :
    clears o (x :: rest) = (decide (x = .ClearBitstreams o) || clears o rest) := by
  simp [clears]

theorem readyFlag_run (calls : List CacheCall) (c c' : Cache) (res : List CacheResult)
    (o : Nat) (h : run c calls = some (res, c')) :
    readyFlag c' o =
      (nonHiddenPushedSinceClear o calls || (readyFlag c o && !clears o calls)) := by
  induction calls generalizing c res with
  | nil =>
    simp only [run, Option.some.injEq, Prod.mk.injEq] at h
    obtain ⟨-, rfl⟩ := h
    simp [nonHiddenPushedSinceClear, clears]
  | cons x rest ih =>
    obtain ⟨r, c1, res', hc, hr, -⟩ := run_cons_some c c' x rest res h
    rw [ih c1 res' hr, readyFlag_call c c1 x r o hc, clears_cons]
    cases x with
    | PushBitstream o' e =>
      by_cases ho : o = o'
      · subst ho
        have hnr := not_ready_of_call_push c c1 o e r hc
        simp only [readyAfter, nonHiddenPushedSinceClear, hnr, if_true]
        cases e.isHiden <;> cases clears o rest <;>
          cases nonHiddenPushedSinceClear o rest <;> simp
      · have ho' : ¬ o' = o := fun h => ho h.symm
        simp [readyAfter, nonHiddenPushedSinceClear, ho, ho']
    | ClearBitstreams o' =>
      by_cases ho : o = o'
      · subst ho
        simp [readyAfter, nonHiddenPushedSinceClear]
      · have ho' : ¬ o' = o := fun h => ho h.symm
        simp [readyAfter, nonHiddenPushedSinceClear, ho, ho']
    | IsCacheReady o' => simp [readyAfter, nonHiddenPushedSinceClear]
    | PeekCachedSize o' => simp [readyAfter, nonHiddenPushedSinceClear]
    | GetBitstreams o' => simp [readyAfter, nonHiddenPushedSinceClear]

theorem queueOf_run (calls : List CacheCall) (c c' : Cache) (res : List CacheResult)
    (o : Nat) (h : run c calls = some (res, c')) :
    queueOf c' o =
      (if clears o calls = true then [] else queueOf c o) ++ pushedSinceClear o calls := by
  induction calls generalizing c res with
  | nil =>
    simp only [run, Option.some.injEq, Prod.mk.injEq] at h
    obtain ⟨-, rfl⟩ := h
    simp [pushedSinceClear, clears]
  | cons x rest ih =>
    obtain ⟨r, c1, res', hc, hr, -⟩ := run_cons_some c c' x rest res h
    rw [ih c1 res' hr, queueOf_call c c1 x r o hc, clears_cons]
    cases x with
    | PushBitstream o' e =>
      by_cases ho : o = o'
      · subst ho
        cases hcl : clears o rest <;> simp [queueAfter, pushedSinceClear, hcl]
      · have ho' : ¬ o' = o := fun h => ho h.symm
        simp [queueAfter, pushedSinceClear, ho, ho']
    | ClearBitstreams o' =>
      by_cases ho : o = o'
      · subst ho
        cases hcl : clears o rest <;> simp [queueAfter, pushedSinceClear, hcl]
      · have ho' : ¬ o' = o := fun h => ho h.symm
        simp [queueAfter, pushedSinceClear, ho, ho']
    | IsCacheReady o' => simp [queueAfter, pushedSinceClear]
    | PeekCachedSize o' => simp [queueAfter, pushedSinceClear]
    | GetBitstreams o' => simp [queueAfter, pushedSinceClear]

theorem CacheEquiv_IsCacheReady (c : Cache) (o : Nat) : CacheEquiv (IsCacheReady c o).2 c :=
  ⟨IsCacheReady_cached c o, fun j => readyFlag_IsCacheReady c o j⟩

theorem PeekCachedSize_congr (c d : Cache) (o : Nat)
    (h : c.m_cachedBitstream = d.m_cachedBitstream) : PeekCachedSize c o = PeekCachedSize d o := by
  unfold PeekCachedSize
  rw [h]

theorem queueOf_congr (c d : Cache) (o : Nat)
    (h : c.m_cachedBitstream = d.m_cachedBitstream) : queueOf c o = queueOf d o := by
  unfold queueOf
  rw [h]

theorem call_equiv (c d : Cache) (x : CacheCall) (h : CacheEquiv c d) :
    (call c x = none ∧ call d x = none) ∨
      ∃ r c' d', call c x = some (r, c') ∧ call d x = some (r, d') ∧ CacheEquiv c' d' := by
  cases x with
  | PushBitstream o e =>
    cases hr : readyFlag c o with
    | true =>
      left
      have hd : readyFlag d o = true := by rw [← h.2 o]; exact hr
      simp [call, (PushBitstream_eq_none_iff c o e).2 hr, (PushBitstream_eq_none_iff d o e).2 hd]
    | false =>
      right
      have hd : readyFlag d o = false := by rw [← h.2 o]; exact hr
      have hc' := PushBitstream_of_not_ready c o e hr
      have hd' := PushBitstream_of_not_ready d o e hd
      refine ⟨.done, _, _, by simp only [call, hc', Option.map_some']; rfl,
        by simp only [call, hd', Option.map_some']; rfl, ?_, ?_⟩
      · show StdMap.set _ _ _ = StdMap.set _ _ _
        rw [h.1, queueOf_congr c d o h.1]
      · intro j
        rw [readyFlag_PushBitstream c _ o j e hc', readyFlag_PushBitstream d _ o j e hd', h.2 j]
  | ClearBitstreams o =>
    right
    refine ⟨.done, ClearBitstreams c o, ClearBitstreams d o, rfl, rfl, ?_, ?_⟩
    · show StdMap.erase _ _ = StdMap.erase _ _
      rw [h.1]
    · intro j
      rw [readyFlag_ClearBitstreams, readyFlag_ClearBitstreams, h.2 j]
  | IsCacheReady o =>
    right
    refine ⟨.ready (IsCacheReady c o).1, (IsCacheReady c o).2, (IsCacheReady d o).2, rfl,
      ?_, ?_, ?_⟩
    · simp only [call]
      rw [IsCacheReady_fst, IsCacheReady_fst, h.2 o]
    · rw [IsCacheReady_cached, IsCacheReady_cached, h.1]
    · intro j
      rw [readyFlag_IsCacheReady, readyFlag_IsCacheReady, h.2 j]
  | PeekCachedSize o =>
    right
    refine ⟨.size (PeekCachedSize c o), c, d, rfl, ?_, h⟩
    simp only [call]
    rw [PeekCachedSize_congr c d o h.1]
  | GetBitstreams o =>
    right
    refine ⟨.queue (GetBitstreams c o).1, (GetBitstreams c o).2, (GetBitstreams d o).2, rfl,
      ?_, ?_, ?_⟩
    · simp only [call]
      rw [GetBitstreams_fst, GetBitstreams_fst, queueOf_congr c d o h.1]
    · show (StdMap.subscript _ _ _).2 = (StdMap.subscript _ _ _).2
      rw [h.1]
    · intro j
      exact h.2 j

theorem run_equiv (calls : List CacheCall) (c d : Cache) (h : CacheEquiv c d) :
    (run c calls).map Prod.fst = (run d calls).map Prod.fst := by
  induction calls generalizing c d with
  | nil => rfl
  | cons x rest ih =>
    rcases call_equiv c d x h with ⟨hc, hd⟩ | ⟨r, c', d', hc, hd, he⟩
    · simp [run, hc, hd]
    · have := ih c' d' he
      simp only [run, hc, hd, Option.map_map]
      cases h1 : run c' rest <;> cases h2 : run d' rest <;> simp_all

/-! ## Claims on the stage table -/

/-- C1 (amended): in every stage table reachable from the initial one that holds fewer
than 2^16 ids, `AddStage(X)` for a registered `X` returns the number of ids registered
before the call, an id that was not registered; afterwards the new id resolves to the old
position of `X` plus one, which is `NextStage(X)` before and after the call, `X` keeps its
position, every old id above the old position of `X` moves up by one and every other old
id keeps its position. -/
theorem AddStage_contract (m : StdMap Nat) (X idx : Nat) (hr : Reachable m)
    (hsize : StdMap.size m < U16) (hX : (Stage m X).1 = some idx) :
    (AddStage m X).1 = some (StdMap.size m) ∧
    (Stage m (StdMap.size m)).1 = none ∧
    (Stage (AddStage m X).2 (StdMap.size m)).1 = some (idx + 1) ∧
    (NextStage m X).1 = some (idx + 1) ∧
    (NextStage (AddStage m X).2 X).1 = some (idx + 1) ∧
    (Stage (AddStage m X).2 X).1 = some idx ∧
    (∀ k p, (Stage m k).1 = some p → p > idx →
      (Stage (AddStage m X).2 k).1 = some (p + 1)) ∧
    (∀ k p, (Stage m k).1 = some p → ¬ p > idx →
      (Stage (AddStage m X).2 k).1 = some p) := by
  have hinv := Reachable_inv m hr hsize
  have hf : StdMap.find m X = some idx := hX
  have hidx : idx < StdMap.size m := hinv.2.2 idx (StdMap.mem_values_of_find m X idx hf)
  have h1 : StdMap.size m % U16 = StdMap.size m := Nat.mod_eq_of_lt hsize
  have h2 : (idx + 1) % U16 = idx + 1 := Nat.mod_eq_of_lt (by omega)
  have hnew : StdMap.find m (StdMap.size m) = none := by
    rw [StdMap.find_eq_none_iff, hinv.1, List.mem_range]
    omega
  have hold : ∀ k p, StdMap.find m k = some p →
      StdMap.find (AddStage m X).2 k = some (if p > idx then p + 1 else p) := by
    intro k p hk
    have hne : k ≠ StdMap.size m := by
      intro h
      rw [h, hnew] at hk
      cases hk
    have hp : p < StdMap.size m := hinv.2.2 p (StdMap.mem_values_of_find m k p hk)
    rw [find_AddStage m X idx k hf, h1, if_neg hne, hk, Option.map_some',
      UpdateStage_eq idx p (by omega)]
  have hXafter : StdMap.find (AddStage m X).2 X = some idx := by
    have := hold X idx hf
    simpa using this
  refine ⟨?_, hnew, ?_, ?_, ?_, hXafter, ?_, ?_⟩
  · rw [AddStage_of_find m X idx hf, h1]
  · show StdMap.find (AddStage m X).2 (StdMap.size m) = some (idx + 1)
    rw [find_AddStage m X idx _ hf, h1, if_pos rfl, h2]
  · simp only [NextStage, Stage, hf, h2]
  · simp only [NextStage, Stage, hXafter, h2]
  · intro k p hk hgt
    have := hold k p hk
    rw [if_pos hgt] at this
    exact this
  · intro k p hk hgt
    have := hold k p hk
    rw [if_neg hgt] at this
    exact this

/-- Witness of C1 on the initial table: `AddStage(S_REORDER)`. -/
theorem AddStage_contract_witness :
    (AddStage m_stageID_init S_REORDER).1 = some 5 ∧
    (Stage (AddStage m_stageID_init S_REORDER).2 5).1 = some 3 ∧
    (Stage (AddStage m_stageID_init S_REORDER).2 S_SUBMIT).1 = some 4 :=
  have h := AddStage_contract m_stageID_init S_REORDER 2 Reachable.init (by decide) (by decide)
  ⟨h.1, h.2.2.1, h.2.2.2.2.2.2.1 S_SUBMIT 3 (by decide) (by decide)⟩

/-- C1 fails on a full table: the table with the ids 0 .. 65535 is reachable, id 0 is
registered in it, and `AddStage(0)` returns 0, an id that was registered, and not the
number 65536 of ids registered before the call. -/
theorem AddStage_contract_counterexample :
    Reachable (identityTable 65536) ∧
    (Stage (identityTable 65536) 0).1 = some 0 ∧
    StdMap.size (identityTable 65536) = 65536 ∧
    (AddStage (identityTable 65536) 0).1 = some 0 ∧
    (AddStage (identityTable 65536) 0).1 ≠ some (StdMap.size (identityTable 65536)) := by
  have hf : StdMap.find (identityTable 65536) 0 = some 0 :=
    find_identityTable 65536 0 (by norm_num)
  have hres : (AddStage (identityTable 65536) 0).1 = some 0 := by
    rw [AddStage_of_find _ 0 0 hf, size_identityTable]
    rfl
  refine ⟨Reachable_identityTable 65536 (by norm_num) (by norm_num [U16]), ?_,
    size_identityTable 65536, hres, ?_⟩
  · rw [Stage_fst, hf]
  · rw [hres, size_identityTable]
    simp

/-- C2 (amended): `AddStage(X)` keeps the relative order of the positions of any two
previously registered ids `a` and `b` in every stage table that is reachable from the
initial one and holds fewer than 2^16 ids, and more generally in every table in which no
position is 65535 and the number of ids (as an `mfxU16`) is not a registered id. -/
theorem AddStage_preserves_order (m : StdMap Nat) (X idx a b pa pb : Nat)
    (hX : (Stage m X).1 = some idx) (ha : (Stage m a).1 = some pa)
    (hb : (Stage m b).1 = some pb)
    (hm : (Reachable m ∧ StdMap.size m < U16) ∨
      ((Stage m (StdMap.size m % U16)).1 = none ∧ ∀ p ∈ StdMap.values m, p + 1 < U16)) :
    ∃ pa' pb', (Stage (AddStage m X).2 a).1 = some pa' ∧
      (Stage (AddStage m X).2 b).1 = some pb' ∧ (pa < pb ↔ pa' < pb') := by
  have hgen : StdMap.find m (StdMap.size m % U16) = none ∧
      ∀ p ∈ StdMap.values m, p + 1 < U16 := by
    rcases hm with ⟨hr, hsize⟩ | hg
    · have hinv := Reachable_inv m hr hsize
      refine ⟨?_, ?_⟩
      · rw [Nat.mod_eq_of_lt hsize, StdMap.find_eq_none_iff, hinv.1, List.mem_range]
        omega
      · intro p hp
        have := hinv.2.2 p hp
        omega
    · exact hg
  obtain ⟨hnew, hmax⟩ := hgen
  have hf : StdMap.find m X = some idx := hX
  have hold : ∀ k p, StdMap.find m k = some p →
      StdMap.find (AddStage m X).2 k = some (if p > idx then p + 1 else p) := by
    intro k p hk
    have hne : k ≠ StdMap.size m % U16 := by
      intro h
      rw [h, hnew] at hk
      cases hk
    rw [find_AddStage m X idx k hf, if_neg hne, hk, Option.map_some',
      UpdateStage_eq idx p (hmax p (StdMap.mem_values_of_find m k p hk))]
  refine ⟨_, _, hold a pa ha, hold b pb hb, ?_⟩
  split_ifs <;> omega

/-- Witness of C2 on the initial table: `AddStage(S_PREPARE)` with `S_NEW` and
`S_SUBMIT`. -/
theorem AddStage_preserves_order_witness :
    ∃ pa' pb', (Stage (AddStage m_stageID_init S_PREPARE).2 S_NEW).1 = some pa' ∧
      (Stage (AddStage m_stageID_init S_PREPARE).2 S_SUBMIT).1 = some pb' ∧
      (0 < 3 ↔ pa' < pb') :=
  AddStage_preserves_order m_stageID_init S_PREPARE 1 S_NEW S_SUBMIT 0 3 (by decide)
    (by decide) (by decide) (Or.inl ⟨Reachable.init, by decide⟩)

/-- C2 fails on a full table: in the reachable table with the ids 0 .. 65535, id 1 lies
before id 65535, and after `AddStage(0)` id 1 is at position 2 while id 65535 wrapped
around to position 0. -/
theorem AddStage_preserves_order_counterexample :
    Reachable (identityTable 65536) ∧
    (Stage (identityTable 65536) 0).1 = some 0 ∧
    (Stage (identityTable 65536) 1).1 = some 1 ∧
    (Stage (identityTable 65536) 65535).1 = some 65535 ∧
    (Stage (AddStage (identityTable 65536) 0).2 1).1 = some 2 ∧
    (Stage (AddStage (identityTable 65536) 0).2 65535).1 = some 0 := by
  have hf : StdMap.find (identityTable 65536) 0 = some 0 :=
    find_identityTable 65536 0 (by norm_num)
  have h1 : StdMap.find (identityTable 65536) 1 = some 1 :=
    find_identityTable 65536 1 (by norm_num)
  have h2 : StdMap.find (identityTable 65536) 65535 = some 65535 :=
    find_identityTable 65536 65535 (by norm_num)
  have hz : (65536 : Nat) % U16 = 0 := by norm_num [U16]
  refine ⟨Reachable_identityTable 65536 (by norm_num) (by norm_num [U16]), ?_, ?_, ?_, ?_, ?_⟩
  · rw [Stage_fst, hf]
  · rw [Stage_fst, h1]
  · rw [Stage_fst, h2]
  · rw [Stage_fst, find_AddStage _ 0 0 1 hf, size_identityTable, hz, if_neg (by norm_num), h1]
    norm_num [UpdateStage, U16]
  · rw [Stage_fst, find_AddStage _ 0 0 65535 hf, size_identityTable, hz,
      if_neg (by norm_num), h2]
    norm_num [UpdateStage, U16]

/-- C3: in every stage table reachable from the initial table that holds fewer than 2^16
ids, the registered ids are exactly `0 .. N-1` and the positions are a permutation of
`0 .. N-1`: no two ids share a position and every position below `N` is taken, `N` being
the number of registered ids. -/
theorem reachable_positions_permutation (m : StdMap Nat) (hr : Reachable m)
    (hsize : StdMap.size m < U16) :
    StdMap.keys m = List.range (StdMap.size m) ∧
    (∀ s, (Stage m s).1 ≠ none ↔ s < StdMap.size m) ∧
    (StdMap.values m).Perm (List.range (StdMap.size m)) ∧
    (∀ a b p, (Stage m a).1 = some p → (Stage m b).1 = some p → a = b) ∧
    (∀ p, p < StdMap.size m → ∃ s, s < StdMap.size m ∧ (Stage m s).1 = some p) := by
  have hinv := Reachable_inv m hr hsize
  have hperm := values_perm_range m hinv
  have hnd : (StdMap.keys m).Nodup := by rw [hinv.1]; exact List.nodup_range _
  have hreg : ∀ s, (Stage m s).1 ≠ none ↔ s < StdMap.size m := by
    intro s
    rw [Stage_fst, Ne, StdMap.find_eq_none_iff, not_not, hinv.1, List.mem_range]
  refine ⟨hinv.1, hreg, hperm, ?_, ?_⟩
  · intro a b p ha hb
    exact StdMap.find_inj m a b p hinv.2.1 ha hb
  · intro p hp
    have hmem : p ∈ StdMap.values m := hperm.mem_iff.2 (List.mem_range.2 hp)
    obtain ⟨s, hs⟩ := StdMap.exists_find_of_mem_values m p hnd hmem
    refine ⟨s, (hreg s).1 ?_, hs⟩
    rw [Stage_fst, hs]
    simp

/-- Witness of C3 on the table reached by `AddStage(S_NEW)`. -/
theorem reachable_positions_permutation_witness :
    StdMap.keys (AddStage m_stageID_init S_NEW).2 = List.range 6 ∧
    (StdMap.values (AddStage m_stageID_init S_NEW).2).Perm (List.range 6) :=
  have h := reachable_positions_permutation (AddStage m_stageID_init S_NEW).2
    (Reachable.addStage m_stageID_init S_NEW 5 Reachable.init (by decide)) (by decide)
  ⟨h.1, h.2.2.1⟩

/-- C9 (amended): `Stage(s)` returns the position stored for `s` and throws exactly when
`s` is not a registered id; `NextStage(s)` throws in exactly the same cases and otherwise
returns `Stage(s) + 1` reduced modulo 2^16, which is `Stage(s) + 1` whenever
`Stage(s)` is below 65535; neither changes the stage table. -/
theorem Stage_NextStage_contract (m : StdMap Nat) (s : Nat) :
    (∀ p, (StdMap.keys m).Nodup → (s, p) ∈ m → (Stage m s).1 = some p) ∧
    ((Stage m s).1 = none ↔ s ∉ StdMap.keys m) ∧
    ((NextStage m s).1 = none ↔ (Stage m s).1 = none) ∧
    (∀ p, (Stage m s).1 = some p → (NextStage m s).1 = some ((p + 1) % U16)) ∧
    (∀ p, (Stage m s).1 = some p → p < 65535 → (NextStage m s).1 = some (p + 1)) ∧
    (Stage m s).2 = m ∧ (NextStage m s).2 = m := by
  refine ⟨?_, ?_, ?_, ?_, ?_, Stage_snd m s, NextStage_snd m s⟩
  · intro p hnd hmem
    exact StdMap.find_of_mem m s p hnd hmem
  · rw [Stage_fst]
    exact StdMap.find_eq_none_iff m s
  · rw [NextStage_fst, Stage_fst]
    cases StdMap.find m s <;> simp
  · intro p hp
    rw [Stage_fst] at hp
    rw [NextStage_fst, hp]
    rfl
  · intro p hp hlt
    rw [Stage_fst] at hp
    rw [NextStage_fst, hp]
    have : (p + 1) % U16 = p + 1 := Nat.mod_eq_of_lt (by unfold U16; omega)
    simp [this]

/-- Witness of C9 on the initial table: `S_SUBMIT` resolves to 3 and is followed by 4. -/
theorem Stage_NextStage_contract_witness :
    (Stage m_stageID_init S_SUBMIT).1 = some 3 ∧
    (NextStage m_stageID_init S_SUBMIT).1 = some 4 :=
  have h := Stage_NextStage_contract m_stageID_init S_SUBMIT
  ⟨h.1 3 (by decide) (by decide),
   h.2.2.2.2.1 3 (h.1 3 (by decide) (by decide)) (by decide)⟩

/-- C9 fails at the last position of a full table: in the reachable table with the ids
0 .. 65535, `Stage(65535)` is 65535 and `NextStage(65535)` is 0, not 65536. -/
theorem Stage_NextStage_contract_counterexample :
    Reachable (identityTable 65536) ∧
    (Stage (identityTable 65536) 65535).1 = some 65535 ∧
    (NextStage (identityTable 65536) 65535).1 = some 0 := by
  have h2 : StdMap.find (identityTable 65536) 65535 = some 65535 :=
    find_identityTable 65536 65535 (by norm_num)
  refine ⟨Reachable_identityTable 65536 (by norm_num) (by norm_num [U16]), ?_, ?_⟩
  · rw [Stage_fst, h2]
  · rw [NextStage_fst, h2]
    norm_num [U16]

/-! ## Claims on the bitstream cache -/

/-- C4: after every sequence of cache calls that starts from the empty cache and in which
no push fails its assertion, `IsCacheReady(o)` is true exactly when the queue of `o`
holds a non-hidden entry, which is exactly when a non-hidden entry has been pushed for
`o` and `ClearBitstreams(o)` has not been called since. -/
theorem IsCacheReady_iff (calls : List CacheCall) (res : List CacheResult) (c : Cache)
    (o : Nat) (h : run Cache.initial calls = some (res, c)) :
    ((IsCacheReady c o).1 = true ↔ ∃ e ∈ (GetBitstreams c o).1, e.isHiden = false) ∧
    ((IsCacheReady c o).1 = true ↔ nonHiddenPushedSinceClear o calls = true) := by
  have hinv := CacheInv_run calls Cache.initial c res CacheInv_initial h
  have hrun := readyFlag_run calls Cache.initial c res o h
  have h0 : readyFlag Cache.initial o = false := by
    simp [readyFlag, Cache.initial, StdMap.find]
  rw [IsCacheReady_fst, GetBitstreams_fst]
  refine ⟨?_, ?_⟩
  · rw [hinv o]
    simp
  · rw [hrun, h0]
    simp

/-- Witness of C4: one non-hidden push for order 7. -/
theorem IsCacheReady_iff_witness :
    (IsCacheReady (Cache.mk [(7, [⟨7, 10, 1, false⟩])]
        [(7, true)]) 7).1 = true ↔
      nonHiddenPushedSinceClear 7 [.PushBitstream 7 ⟨7, 10, 1, false⟩] = true :=
  (IsCacheReady_iff [.PushBitstream 7 ⟨7, 10, 1, false⟩] [.done]
    (Cache.mk [(7, [⟨7, 10, 1, false⟩])] [(7, true)]) 7 rfl).2

/-- C5 (amended): after every sequence of cache calls from the empty cache in which no
push fails, `PeekCachedSize(o)` is the sum of the `BsDataLength` of the entries pushed
for `o` since the last `ClearBitstreams(o)`, reduced modulo 2^32 (so the sum itself when
that is below 2^32); in every cache it returns 0 for an order without a queue or with an
empty queue, and it leaves the cache as it is. -/
theorem PeekCachedSize_history (calls : List CacheCall) (res : List CacheResult) (c : Cache)
    (o : Nat) (h : run Cache.initial calls = some (res, c)) :
    PeekCachedSize c o =
      ((pushedSinceClear o calls).map CachedBitstream.BsDataLength).sum % U32 ∧
    (((pushedSinceClear o calls).map CachedBitstream.BsDataLength).sum < U32 →
      PeekCachedSize c o = ((pushedSinceClear o calls).map CachedBitstream.BsDataLength).sum) ∧
    (∀ d : Cache, StdMap.find d.m_cachedBitstream o = none ∨
      StdMap.find d.m_cachedBitstream o = some [] → PeekCachedSize d o = 0) ∧
    (∀ d : Cache, call d (.PeekCachedSize o) = some (.size (PeekCachedSize d o), d)) := by
  have hq := queueOf_run calls Cache.initial c res o h
  have h0 : queueOf Cache.initial o = [] := by
    simp [queueOf, Cache.initial, StdMap.find]
  have hq' : queueOf c o = pushedSinceClear o calls := by
    rw [hq, h0]
    simp
  have hsum : PeekCachedSize c o =
      ((pushedSinceClear o calls).map CachedBitstream.BsDataLength).sum % U32 := by
    rw [PeekCachedSize_eq, hq']
  refine ⟨hsum, ?_, ?_, ?_⟩
  · intro hlt
    rw [hsum, Nat.mod_eq_of_lt hlt]
  · intro d hd
    rcases hd with hd | hd <;> simp [PeekCachedSize, hd]
  · intro d
    rfl

/-- Witness of C5: a hidden entry of 10 bytes and a non-hidden entry of 20 bytes pushed
for order 3 give 30. -/
theorem PeekCachedSize_history_witness :
    PeekCachedSize (Cache.mk [(3, [⟨3, 10, 1, true⟩, ⟨3, 20, 2, false⟩])]
        [(3, true)]) 3 = 30 :=
  ((PeekCachedSize_history
    [.PushBitstream 3 ⟨3, 10, 1, true⟩, .PushBitstream 3 ⟨3, 20, 2, false⟩] [.done, .done]
    (Cache.mk [(3, [⟨3, 10, 1, true⟩, ⟨3, 20, 2, false⟩])]
        [(3, true)]) 3 rfl).2.1 (by decide)).trans (by decide)

/-- C5 fails when the lengths add up to 2^32: after two hidden entries of 2^31 bytes each
have been pushed for order 0, `PeekCachedSize(0)` is 0 while the lengths pushed since the
start add up to 4294967296. -/
theorem PeekCachedSize_history_counterexample :
    run Cache.initial
        [.PushBitstream 0 (CachedBitstream.create 2147483648 1),
         .PushBitstream 0 (CachedBitstream.create 2147483648 2)] =
      some ([.done, .done],
        (Cache.mk [(0, [CachedBitstream.create 2147483648 1,
            CachedBitstream.create 2147483648 2])]
        [(0, false)])) ∧
    PeekCachedSize
        (Cache.mk [(0, [CachedBitstream.create 2147483648 1,
            CachedBitstream.create 2147483648 2])]
        [(0, false)]) 0 = 0 ∧
    ((pushedSinceClear 0
        [.PushBitstream 0 (CachedBitstream.create 2147483648 1),
         .PushBitstream 0 (CachedBitstream.create 2147483648 2)]).map
      CachedBitstream.BsDataLength).sum = 4294967296 := by
  refine ⟨rfl, by decide, by decide⟩

/-- C6: in every cache, for an order `o` that is not marked ready and every entry `e`,
`PushBitstream(o, e)` succeeds; afterwards `GetBitstreams(o)` is the old queue of `o`
followed by `e`, `IsCacheReady(o)` is "`e` is non-hidden", and the stored queue and
readiness entry of every other order, hence what `GetBitstreams` and `IsCacheReady`
return for it, are unchanged. -/
theorem PushBitstream_appends (c : Cache) (o : Nat) (e : CachedBitstream)
    (h : (IsCacheReady c o).1 = false) :
    ∃ c', PushBitstream c o e = some c' ∧
      (GetBitstreams c' o).1 = (GetBitstreams c o).1 ++ [e] ∧
      (IsCacheReady c' o).1 = !e.isHiden ∧
      ∀ o', o' ≠ o →
        StdMap.find c'.m_cachedBitstream o' = StdMap.find c.m_cachedBitstream o' ∧
        StdMap.find c'.m_outputReady o' = StdMap.find c.m_outputReady o' ∧
        (GetBitstreams c' o').1 = (GetBitstreams c o').1 ∧
        (IsCacheReady c' o').1 = (IsCacheReady c o').1 := by
  rw [IsCacheReady_fst] at h
  have hp := PushBitstream_of_not_ready c o e h
  refine ⟨_, hp, ?_, ?_, ?_⟩
  · rw [GetBitstreams_fst, GetBitstreams_fst, queueOf_PushBitstream c _ o o e hp]
    simp
  · rw [IsCacheReady_fst, readyFlag_PushBitstream c _ o o e hp]
    simp
  · intro o' ho'
    refine ⟨?_, ?_, ?_, ?_⟩
    · rw [find_cached_PushBitstream c _ o o' e hp, if_neg ho']
    · rw [find_ready_PushBitstream c _ o o' e hp, if_neg ho']
    · rw [GetBitstreams_fst, GetBitstreams_fst, queueOf_PushBitstream c _ o o' e hp,
        if_neg ho']
    · rw [IsCacheReady_fst, IsCacheReady_fst, readyFlag_PushBitstream c _ o o' e hp,
        if_neg ho']

/-- Witness of C6: a non-hidden entry pushed for order 3, which holds a hidden entry. -/
theorem PushBitstream_appends_witness :
    ∃ c', PushBitstream (Cache.mk [(3, [⟨3, 10, 1, true⟩])] [(3, false)]) 3
        ⟨3, 20, 2, false⟩ = some c' ∧
      (GetBitstreams c' 3).1 =
        (GetBitstreams (Cache.mk [(3, [⟨3, 10, 1, true⟩])] [(3, false)]) 3).1 ++
          [⟨3, 20, 2, false⟩] ∧
      (IsCacheReady c' 3).1 = !(CachedBitstream.mk 3 20 2 false).isHiden ∧
      ∀ o', o' ≠ 3 →
        StdMap.find c'.m_cachedBitstream o' =
          StdMap.find (Cache.mk [(3, [⟨3, 10, 1, true⟩])] [(3, false)]).m_cachedBitstream o' ∧
        StdMap.find c'.m_outputReady o' =
          StdMap.find (Cache.mk [(3, [⟨3, 10, 1, true⟩])] [(3, false)]).m_outputReady o' ∧
        (GetBitstreams c' o').1 =
          (GetBitstreams (Cache.mk [(3, [⟨3, 10, 1, true⟩])] [(3, false)]) o').1 ∧
        (IsCacheReady c' o').1 =
          (IsCacheReady (Cache.mk [(3, [⟨3, 10, 1, true⟩])] [(3, false)]) o').1 :=
  PushBitstream_appends (Cache.mk [(3, [⟨3, 10, 1, true⟩])] [(3, false)]) 3
    ⟨3, 20, 2, false⟩ (by decide)

/-- C7: in every cache, after `ClearBitstreams(o)` the queue of `o` is gone,
`GetBitstreams(o)` is empty, `PeekCachedSize(o)` is 0 and `IsCacheReady(o)` is false,
while for every other order the stored queue and readiness entry, `GetBitstreams`,
`PeekCachedSize` and `IsCacheReady` are what they were before; clearing an order that
has neither a queue nor a readiness entry leaves the cache as it is. -/
theorem ClearBitstreams_frame (c : Cache) (o : Nat) :
    StdMap.find (ClearBitstreams c o).m_cachedBitstream o = none ∧
    StdMap.find (ClearBitstreams c o).m_outputReady o = none ∧
    (GetBitstreams (ClearBitstreams c o) o).1 = [] ∧
    PeekCachedSize (ClearBitstreams c o) o = 0 ∧
    (IsCacheReady (ClearBitstreams c o) o).1 = false ∧
    (∀ o', o' ≠ o →
      StdMap.find (ClearBitstreams c o).m_cachedBitstream o' =
        StdMap.find c.m_cachedBitstream o' ∧
      StdMap.find (ClearBitstreams c o).m_outputReady o' = StdMap.find c.m_outputReady o' ∧
      (GetBitstreams (ClearBitstreams c o) o').1 = (GetBitstreams c o').1 ∧
      PeekCachedSize (ClearBitstreams c o) o' = PeekCachedSize c o' ∧
      (IsCacheReady (ClearBitstreams c o) o').1 = (IsCacheReady c o').1) ∧
    (StdMap.find c.m_cachedBitstream o = none → StdMap.find c.m_outputReady o = none →
      ClearBitstreams c o = c) := by
  have hc : ∀ j, StdMap.find (ClearBitstreams c o).m_cachedBitstream j =
      if j = o then none else StdMap.find c.m_cachedBitstream j := by
    intro j
    exact StdMap.find_erase c.m_cachedBitstream o j
  have hr : ∀ j, StdMap.find (ClearBitstreams c o).m_outputReady j =
      if j = o then none else StdMap.find c.m_outputReady j := by
    intro j
    exact StdMap.find_erase c.m_outputReady o j
  refine ⟨?_, ?_, ?_, ?_, ?_, ?_, ?_⟩
  · rw [hc, if_pos rfl]
  · rw [hr, if_pos rfl]
  · rw [GetBitstreams_fst, queueOf_ClearBitstreams, if_pos rfl]
  · rw [PeekCachedSize_eq, queueOf_ClearBitstreams, if_pos rfl]
    rfl
  · rw [IsCacheReady_fst, readyFlag_ClearBitstreams, if_pos rfl]
  · intro o' ho'
    refine ⟨?_, ?_, ?_, ?_, ?_⟩
    · rw [hc, if_neg ho']
    · rw [hr, if_neg ho']
    · rw [GetBitstreams_fst, GetBitstreams_fst, queueOf_ClearBitstreams, if_neg ho']
    · rw [PeekCachedSize_eq, PeekCachedSize_eq, queueOf_ClearBitstreams, if_neg ho']
    · rw [IsCacheReady_fst, IsCacheReady_fst, readyFlag_ClearBitstreams, if_neg ho']
  · intro h1 h2
    unfold ClearBitstreams
    rw [StdMap.erase_eq_self _ _ h1, StdMap.erase_eq_self _ _ h2]

/-- Witness of C7, the scenario of the specification: orders 0, 1 and 2 are ready and
order 1 is cleared. -/
theorem ClearBitstreams_frame_witness :
    (IsCacheReady (ClearBitstreams (Cache.mk
        [(0, [⟨0, 5, 1, false⟩]), (1, [⟨1, 6, 2, false⟩]), (2, [⟨2, 7, 3, false⟩])]
        [(0, true), (1, true), (2, true)]) 1) 1).1 = false ∧
    (IsCacheReady (ClearBitstreams (Cache.mk
        [(0, [⟨0, 5, 1, false⟩]), (1, [⟨1, 6, 2, false⟩]), (2, [⟨2, 7, 3, false⟩])]
        [(0, true), (1, true), (2, true)]) 1) 0).1 = true ∧
    (IsCacheReady (ClearBitstreams (Cache.mk
        [(0, [⟨0, 5, 1, false⟩]), (1, [⟨1, 6, 2, false⟩]), (2, [⟨2, 7, 3, false⟩])]
        [(0, true), (1, true), (2, true)]) 1) 2).1 = true :=
  have h := ClearBitstreams_frame (Cache.mk
    [(0, [⟨0, 5, 1, false⟩]), (1, [⟨1, 6, 2, false⟩]), (2, [⟨2, 7, 3, false⟩])]
    [(0, true), (1, true), (2, true)]) 1
  ⟨h.2.2.2.2.1, (h.2.2.2.2.2.1 0 (by decide)).2.2.2.2.trans (by decide),
    (h.2.2.2.2.2.1 2 (by decide)).2.2.2.2.trans (by decide)⟩

/-- C8: `PushBitstream(o, e)` fails its assertion exactly when `o` is marked ready,
whatever `e` is; after a successful push of a non-hidden entry for `o`, and after any
further calls without a `ClearBitstreams(o)`, every push for `o` fails; and right after
`ClearBitstreams(o)` every push for `o` succeeds. -/
theorem PushBitstream_assertion (c : Cache) (o : Nat) (e : CachedBitstream) :
    (PushBitstream c o e = none ↔ (IsCacheReady c o).1 = true) ∧
    (∀ (c1 c2 : Cache) (calls : List CacheCall) (res : List CacheResult)
      (e2 : CachedBitstream), PushBitstream c o e = some c1 → e.isHiden = false →
      run c1 calls = some (res, c2) → clears o calls = false →
      PushBitstream c2 o e2 = none) ∧
    (∀ e2 : CachedBitstream, PushBitstream (ClearBitstreams c o) o e2 ≠ none) := by
  refine ⟨?_, ?_, ?_⟩
  · rw [IsCacheReady_fst]
    exact PushBitstream_eq_none_iff c o e
  · intro c1 c2 calls res e2 hp hh hrun hcl
    rw [PushBitstream_eq_none_iff, readyFlag_run calls c1 c2 res o hrun,
      readyFlag_PushBitstream c c1 o o e hp, hcl, hh]
    simp
  · intro e2 hnone
    rw [PushBitstream_eq_none_iff, readyFlag_ClearBitstreams, if_pos rfl] at hnone
    cases hnone

/-- Witness of C8: after a non-hidden push for order 7 and a `PeekCachedSize(7)`, a
second push for order 7 fails. -/
theorem PushBitstream_assertion_witness :
    PushBitstream (Cache.mk [(7, [⟨7, 10, 1, false⟩])] [(7, true)]) 7 ⟨7, 4, 2, true⟩ = none :=
  (PushBitstream_assertion Cache.initial 7 ⟨7, 10, 1, false⟩).2.1
    (Cache.mk [(7, [⟨7, 10, 1, false⟩])] [(7, true)])
    (Cache.mk [(7, [⟨7, 10, 1, false⟩])] [(7, true)])
    [.PeekCachedSize 7] [.size 10] ⟨7, 4, 2, true⟩ rfl rfl rfl rfl

/-- C10: in every cache, `IsCacheReady(o)` on an order `o` that is not marked ready
returns false and leaves the entry queues as they are; when `o` had no readiness entry
the call adds the entry `o -> false`, and otherwise it changes nothing; no readiness
entry of another order changes, and every later sequence of cache calls returns the same
results, and fails at the same call, as it would without that `IsCacheReady` call. -/
theorem IsCacheReady_unobservable (c : Cache) (o : Nat)
    (h : StdMap.find c.m_outputReady o ≠ some true) :
    (IsCacheReady c o).1 = false ∧
    (IsCacheReady c o).2.m_cachedBitstream = c.m_cachedBitstream ∧
    (StdMap.find c.m_outputReady o = none →
      (IsCacheReady c o).2.m_outputReady = StdMap.set c.m_outputReady o false) ∧
    (StdMap.find c.m_outputReady o = some false → (IsCacheReady c o).2 = c) ∧
    StdMap.find (IsCacheReady c o).2.m_outputReady o = some false ∧
    (∀ o', o' ≠ o →
      StdMap.find (IsCacheReady c o).2.m_outputReady o' = StdMap.find c.m_outputReady o') ∧
    (∀ calls : List CacheCall,
      (run (IsCacheReady c o).2 calls).map Prod.fst = (run c calls).map Prod.fst) := by
  have hflag : readyFlag c o = false := by
    unfold readyFlag
    cases hf : StdMap.find c.m_outputReady o with
    | none => rfl
    | some b =>
      cases b with
      | false => rfl
      | true => exact absurd hf h
  refine ⟨?_, rfl, ?_, ?_, ?_, ?_, ?_⟩
  · rw [IsCacheReady_fst, hflag]
  · intro hnone
    simp [IsCacheReady, StdMap.subscript, hnone]
  · intro hsome
    simp [IsCacheReady, StdMap.subscript, hsome]
  · rw [find_ready_IsCacheReady, if_pos rfl, hflag]
  · intro o' ho'
    rw [find_ready_IsCacheReady, if_neg ho']
  · intro calls
    exact run_equiv calls _ c (CacheEquiv_IsCacheReady c o)

/-- Witness of C10: reading the readiness of the unknown order 9 does not change what a
later push for 9, a read of 9 and a size query return. -/
theorem IsCacheReady_unobservable_witness :
    (IsCacheReady Cache.initial 9).1 = false ∧
    (IsCacheReady Cache.initial 9).2.m_outputReady = [(9, false)] ∧
    (run (IsCacheReady Cache.initial 9).2
        [.PushBitstream 9 ⟨9, 4, 1, false⟩, .IsCacheReady 9, .PeekCachedSize 9]).map Prod.fst =
      some [.done, .ready true, .size 4] :=
  have h := IsCacheReady_unobservable Cache.initial 9 (by decide)
  ⟨h.1, (h.2.2.1 rfl).trans rfl,
    (h.2.2.2.2.2.2 [.PushBitstream 9 ⟨9, 4, 1, false⟩, .IsCacheReady 9,
      .PeekCachedSize 9]).trans rfl⟩

/-! ## Further lemmas on the stage table -/

theorem find_AddStage_old (m : StdMap Nat) (X idx k p : Nat) (hinv : StageInv m)
    (hsize : StdMap.size m < U16) (hf : StdMap.find m X = some idx)
    (hk : StdMap.find m k = some p) :
    StdMap.find (AddStage m X).2 k = some (if p > idx then p + 1 else p) := by
  have hp : p < StdMap.size m := hinv.2.2 p (StdMap.mem_values_of_find m k p hk)
  have hne : k ≠ StdMap.size m % U16 := by
    rw [Nat.mod_eq_of_lt hsize]
    intro h
    have hnone : StdMap.find m (StdMap.size m) = none := by
      rw [StdMap.find_eq_none_iff, hinv.1, List.mem_range]
      omega
    rw [h, hnone] at hk
    cases hk
  rw [find_AddStage m X idx k hf, if_neg hne, hk, Option.map_some',
    UpdateStage_eq idx p (by omega)]

theorem Reachable_size_ge (m : StdMap Nat) (hr : Reachable m) : 5 ≤ StdMap.size m := by
  induction hr with
  | init => decide
  | addStage m X n _ _ ih => exact le_trans ih (size_le_AddStage m X)

theorem BuiltinOrder_init : BuiltinOrder m_stageID_init :=
  ⟨1, 2, 3, 4, by decide, by decide, by decide, by decide, by decide, by decide, by decide,
    by decide, by decide⟩

theorem BuiltinOrder_AddStage (m : StdMap Nat) (X idx : Nat) (hinv : StageInv m)
    (hsize : StdMap.size m < U16) (hf : StdMap.find m X = some idx)
    (hb : BuiltinOrder m) : BuiltinOrder (AddStage m X).2 := by
  obtain ⟨p1, p2, p3, p4, h0, h1, h2, h3, h4, l0, l1, l2, l3⟩ := hb
  rw [Stage_fst] at h0 h1 h2 h3 h4
  have k0 := find_AddStage_old m X idx S_NEW 0 hinv hsize hf h0
  have k1 := find_AddStage_old m X idx S_PREPARE p1 hinv hsize hf h1
  have k2 := find_AddStage_old m X idx S_REORDER p2 hinv hsize hf h2
  have k3 := find_AddStage_old m X idx S_SUBMIT p3 hinv hsize hf h3
  have k4 := find_AddStage_old m X idx S_QUERY p4 hinv hsize hf h4
  have hz : ¬ 0 > idx := by omega
  rw [if_neg hz] at k0
  refine ⟨_, _, _, _, k0, k1, k2, k3, k4, ?_, ?_, ?_, ?_⟩ <;> split_ifs <;> omega

theorem Reachable_BuiltinOrder (m : StdMap Nat) (hr : Reachable m) :
    StdMap.size m < U16 → BuiltinOrder m := by
  induction hr with
  | init => intro _; exact BuiltinOrder_init
  | addStage m X n hrm hres ih =>
    intro hsize
    have hm : StdMap.size m < U16 := lt_of_le_of_lt (size_le_AddStage m X) hsize
    cases hf : StdMap.find m X with
    | none => rw [AddStage_of_none m X hf] at hres; simp at hres
    | some idx => exact BuiltinOrder_AddStage m X idx (Reachable_inv m hrm hm) hm hf (ih hm)

theorem ReachableIn_reachable (k : Nat) (m : StdMap Nat) (h : ReachableIn k m) :
    Reachable m := by
  induction h with
  | init => exact Reachable.init
  | addStage k m X n _ hres ih => exact Reachable.addStage m X n ih hres

theorem ReachableIn_inv (k : Nat) (m : StdMap Nat) (h : ReachableIn k m) :
    k + 5 ≤ U16 → StageInv m ∧ StdMap.size m = 5 + k := by
  induction h with
  | init => intro _; exact ⟨StageInv_init, by decide⟩
  | addStage k m X n _ hres ih =>
    intro hk
    obtain ⟨hinv, hsz⟩ := ih (by omega)
    have hm : StdMap.size m < U16 := by omega
    cases hf : StdMap.find m X with
    | none => rw [AddStage_of_none m X hf] at hres; simp at hres
    | some idx =>
      obtain ⟨hinv', hsz'⟩ := StageInv_AddStage m X idx hinv hm hf
      exact ⟨hinv', by omega⟩

theorem ReachableIn_identityTable (n : Nat) (h5 : 5 ≤ n) (hn : n ≤ U16) :
    ReachableIn (n - 5) (identityTable n) := by
  induction n, h5 using Nat.le_induction with
  | base => rw [← m_stageID_init_eq]; exact ReachableIn.init
  | succ k hk ih =>
    have hk16 : k < U16 := by omega
    have hstep := AddStage_identityTable k (by omega) hk16
    have := ReachableIn.addStage (k - 5) (identityTable k) (k - 1) k (ih (by omega))
      (by rw [hstep])
    rw [hstep] at this
    have hidx : k + 1 - 5 = k - 5 + 1 := by omega
    rw [hidx]
    exact this

theorem forEach_eq_self {V : Type} (f : V → V) (m : StdMap V)
    (h : ∀ v ∈ StdMap.values m, f v = v) : StdMap.forEach f m = m := by
  unfold StdMap.forEach
  conv_rhs => rw [← List.map_id m]
  apply List.map_congr_left
  intro pair hpair
  have : f pair.2 = pair.2 := h pair.2 (List.mem_map_of_mem Prod.snd hpair)
  simp [this]

theorem AddStage_full_identityTable :
    AddStage (identityTable 65536) 65535 = (some 0, identityTable 65536) := by
  have hf : StdMap.find (identityTable 65536) 65535 = some 65535 :=
    find_identityTable 65536 65535 (by norm_num)
  have hfe : StdMap.forEach (UpdateStage 65535) (identityTable 65536) = identityTable 65536 := by
    apply forEach_eq_self
    intro v hv
    rw [values_identityTable, List.mem_range] at hv
    unfold UpdateStage U16
    have : ¬ v > 65535 := by omega
    rw [if_neg this]
    exact Nat.mod_eq_of_lt (by omega)
  have hcons : identityTable 65536 = (0, 0) :: (List.range 65535).map (fun i => (i + 1, i + 1)) := by
    unfold identityTable
    rw [show (65536 : Nat) = 65535 + 1 from rfl, List.range_succ_eq_map]
    simp [List.map_map, Function.comp_def]
  rw [AddStage_of_find _ _ _ hf, hfe, size_identityTable]
  have h1 : (65536 : Nat) % U16 = 0 := by norm_num [U16]
  have hset : ∀ rest : StdMap Nat, StdMap.set ((0, 0) :: rest) 0 0 = (0, 0) :: rest := by
    intro rest
    simp [StdMap.set]
  have hsame : StdMap.set (identityTable 65536) 0 0 = identityTable 65536 := by
    rw [hcons]
    exact hset _
  rw [h1, hsame]

/-- C16 (amended): in every stage table reachable from the initial table that holds fewer
than 2^16 ids, `Stage(S_NEW) = 0` and the five built-in stages resolve to positions in
their lifecycle order, NEW before PREPARE before REORDER before SUBMIT before QUERY. -/
theorem builtin_stage_order (m : StdMap Nat) (hr : Reachable m)
    (hsize : StdMap.size m < U16) :
    ∃ p1 p2 p3 p4, (Stage m S_NEW).1 = some 0 ∧ (Stage m S_PREPARE).1 = some p1 ∧
      (Stage m S_REORDER).1 = some p2 ∧ (Stage m S_SUBMIT).1 = some p3 ∧
      (Stage m S_QUERY).1 = some p4 ∧ 0 < p1 ∧ p1 < p2 ∧ p2 < p3 ∧ p3 < p4 :=
  Reachable_BuiltinOrder m hr hsize

/-- Witness of C16 on the table reached by `AddStage(S_REORDER)`. -/
theorem builtin_stage_order_witness :
    ∃ p1 p2 p3 p4, (Stage (AddStage m_stageID_init S_REORDER).2 S_NEW).1 = some 0 ∧
      (Stage (AddStage m_stageID_init S_REORDER).2 S_PREPARE).1 = some p1 ∧
      (Stage (AddStage m_stageID_init S_REORDER).2 S_REORDER).1 = some p2 ∧
      (Stage (AddStage m_stageID_init S_REORDER).2 S_SUBMIT).1 = some p3 ∧
      (Stage (AddStage m_stageID_init S_REORDER).2 S_QUERY).1 = some p4 ∧
      0 < p1 ∧ p1 < p2 ∧ p2 < p3 ∧ p3 < p4 :=
  builtin_stage_order (AddStage m_stageID_init S_REORDER).2
    (Reachable.addStage m_stageID_init S_REORDER 5 Reachable.init (by decide)) (by decide)

/-- C16 fails after a call on a full table: the table with the ids 0 .. 65535 is
reachable, `AddStage(S_PREPARE)` succeeds on it and returns id 0, and afterwards `S_NEW`
is at position 2 and `S_PREPARE` at position 1. -/
theorem builtin_stage_order_counterexample :
    Reachable (AddStage (identityTable 65536) S_PREPARE).2 ∧
    (AddStage (identityTable 65536) S_PREPARE).1 = some 0 ∧
    (Stage (AddStage (identityTable 65536) S_PREPARE).2 S_NEW).1 = some 2 ∧
    (Stage (AddStage (identityTable 65536) S_PREPARE).2 S_PREPARE).1 = some 1 := by
  have hf : StdMap.find (identityTable 65536) 1 = some 1 :=
    find_identityTable 65536 1 (by norm_num)
  have hz : (65536 : Nat) % U16 = 0 := by norm_num [U16]
  have hres : (AddStage (identityTable 65536) 1).1 = some 0 := by
    rw [AddStage_of_find _ 1 1 hf, size_identityTable]
    rfl
  refine ⟨Reachable.addStage (identityTable 65536) 1 0
    (Reachable_identityTable 65536 (by norm_num) (by norm_num [U16])) hres, hres, ?_, ?_⟩
  · show (Stage (AddStage (identityTable 65536) 1).2 0).1 = some 2
    rw [Stage_fst, find_AddStage _ 1 1 0 hf, size_identityTable, hz, if_pos rfl]
    norm_num [U16]
  · show (Stage (AddStage (identityTable 65536) 1).2 1).1 = some 1
    rw [Stage_fst, find_AddStage _ 1 1 1 hf, size_identityTable, hz, if_neg (by norm_num), hf]
    norm_num [UpdateStage, U16]

/-- C17 (amended): after `k` successful `AddStage` calls on the initial table, for every
`k` up to 65531, the table holds `5 + k` ids and the largest position is `4 + k`; hence for
`k ≤ 2` every position that `Stage` returns is below `max_num_of_stages = 7`, the length of
`m_stages`. -/
theorem largest_position (k : Nat) (m : StdMap Nat) (h : ReachableIn k m)
    (hk : k ≤ 65531) :
    StdMap.size m = 5 + k ∧
    (∃ s, (Stage m s).1 = some (4 + k)) ∧
    (∀ s p, (Stage m s).1 = some p → p ≤ 4 + k) ∧
    (k ≤ 2 → ∀ s p, (Stage m s).1 = some p → p < max_num_of_stages) := by
  obtain ⟨hinv, hsz⟩ := ReachableIn_inv k m h (by unfold U16; omega)
  have hbound : ∀ s p, (Stage m s).1 = some p → p ≤ 4 + k := by
    intro s p hs
    have := hinv.2.2 p (StdMap.mem_values_of_find m s p hs)
    omega
  refine ⟨hsz, ?_, hbound, ?_⟩
  · have hmem : 4 + k ∈ StdMap.values m :=
      (values_perm_range m hinv).mem_iff.2 (List.mem_range.2 (by omega))
    have hnd : (StdMap.keys m).Nodup := by rw [hinv.1]; exact List.nodup_range _
    exact StdMap.exists_find_of_mem_values m (4 + k) hnd hmem
  · intro hk2 s p hs
    have := hbound s p hs
    unfold max_num_of_stages
    omega

/-- Witness of C17: after `AddStage(S_SUBMIT)` and `AddStage(S_QUERY)` the largest
position is 6. -/
theorem largest_position_witness :
    (∃ s, (Stage (AddStage (AddStage m_stageID_init S_SUBMIT).2 S_QUERY).2 s).1 = some (4 + 2)) ∧
    (∀ s p, (Stage (AddStage (AddStage m_stageID_init S_SUBMIT).2 S_QUERY).2 s).1 = some p →
      p < max_num_of_stages) :=
  have h := largest_position 2 (AddStage (AddStage m_stageID_init S_SUBMIT).2 S_QUERY).2
    (ReachableIn.addStage 1 (AddStage m_stageID_init S_SUBMIT).2 S_QUERY 6
      (ReachableIn.addStage 0 m_stageID_init S_SUBMIT 5 ReachableIn.init (by decide))
      (by decide)) (by decide)
  ⟨h.2.1, h.2.2.2 (by decide)⟩

/-- C17 fails for `k = 65532`: 65532 successful `AddStage` calls lead to the table with
the ids 0 .. 65535 at their own positions (the last call, `AddStage(65535)` on the full
table, returns id 0 and changes nothing), in which no position is `4 + 65532`. -/
theorem largest_position_counterexample :
    ReachableIn 65532 (identityTable 65536) ∧
    (Stage (identityTable 65536) 65535).1 = some 65535 ∧
    ¬ ∃ s, (Stage (identityTable 65536) s).1 = some (4 + 65532) := by
  have hfull : ReachableIn 65531 (identityTable 65536) := by
    have h5 := ReachableIn_identityTable 65536 (by norm_num) (by norm_num [U16])
    have hsub : 65536 - 5 = 65531 := by norm_num
    rw [hsub] at h5
    exact h5
  have hstep := ReachableIn.addStage 65531 (identityTable 65536) 65535 0 hfull
    (by rw [AddStage_full_identityTable])
  have hadd : 65531 + 1 = 65532 := by norm_num
  rw [AddStage_full_identityTable, hadd] at hstep
  dsimp only at hstep
  refine ⟨hstep, ?_, ?_⟩
  · rw [Stage_fst]
    exact find_identityTable 65536 65535 (by norm_num)
  · rintro ⟨s, hs⟩
    rw [Stage_fst] at hs
    have hmem := StdMap.mem_values_of_find _ _ _ hs
    rw [values_identityTable, List.mem_range] at hmem
    omega

/-- C19: `AddStage(X)` throws exactly when `X` is not a registered id, which is exactly
when `Stage(X)` throws, and a call that throws leaves `m_stageID` as it was: every id
resolves as before and no id is added. -/
theorem AddStage_failure (m : StdMap Nat) (X : Nat) :
    ((AddStage m X).1 = none ↔ X ∉ StdMap.keys m) ∧
    ((AddStage m X).1 = none ↔ (Stage m X).1 = none) ∧
    ((AddStage m X).1 = none → (AddStage m X).2 = m) ∧
    ((AddStage m X).1 = none → ∀ s, (Stage (AddStage m X).2 s).1 = (Stage m s).1) ∧
    ((AddStage m X).1 = none → StdMap.size (AddStage m X).2 = StdMap.size m) := by
  have hiff : (AddStage m X).1 = none ↔ StdMap.find m X = none := by
    cases hf : StdMap.find m X with
    | none => rw [AddStage_of_none m X hf]
    | some idx => rw [AddStage_of_find m X idx hf]; simp
  have hsame : (AddStage m X).1 = none → (AddStage m X).2 = m := by
    intro h
    rw [AddStage_of_none m X (hiff.1 h)]
  refine ⟨?_, ?_, hsame, ?_, ?_⟩
  · rw [hiff]
    exact StdMap.find_eq_none_iff m X
  · rw [hiff, Stage_fst]
  · intro h s
    rw [hsame h]
  · intro h
    rw [hsame h]

/-- Witness of C19: `AddStage(9)` on the initial table, where id 9 is not registered. -/
theorem AddStage_failure_witness :
    (AddStage m_stageID_init 9).1 = none ∧ (AddStage m_stageID_init 9).2 = m_stageID_init :=
  have h := AddStage_failure m_stageID_init 9
  ⟨h.1.2 (by decide), h.2.2.1 (h.1.2 (by decide))⟩

/-! ## Further lemmas and claims on the bitstream cache -/

theorem all_hidden_of_not_ready (c : Cache) (o : Nat) (hinv : CacheInv c)
    (h : readyFlag c o = false) : ∀ e ∈ queueOf c o, e.isHiden = true := by
  have hq := hinv o
  rw [h] at hq
  have := List.any_eq_false.1 hq.symm
  intro e he
  have hne := this e he
  simpa using hne

theorem HiddenBeforeLast_initial : HiddenBeforeLast Cache.initial := by
  intro o e he
  simp [queueOf, Cache.initial, StdMap.find] at he

theorem HiddenBeforeLast_call (c c' : Cache) (x : CacheCall) (r : CacheResult)
    (hinv : CacheInv c) (hh : HiddenBeforeLast c) (h : call c x = some (r, c')) :
    HiddenBeforeLast c' := by
  intro o
  rw [queueOf_call c c' x r o h]
  cases x with
  | PushBitstream o' e =>
    by_cases ho : o = o'
    · subst ho
      have hnr := not_ready_of_call_push c c' o e r h
      simp only [queueAfter, if_true, List.dropLast_concat]
      exact all_hidden_of_not_ready c o hinv hnr
    · simp only [queueAfter, if_neg ho]
      exact hh o
  | ClearBitstreams o' =>
    by_cases ho : o = o'
    · simp [queueAfter, ho]
    · simp only [queueAfter, if_neg ho]
      exact hh o
  | IsCacheReady o' => exact hh o
  | PeekCachedSize o' => exact hh o
  | GetBitstreams o' => exact hh o

theorem HiddenBeforeLast_run (calls : List CacheCall) (c c' : Cache) (res : List CacheResult)
    (hinv : CacheInv c) (hh : HiddenBeforeLast c) (h : run c calls = some (res, c')) :
    HiddenBeforeLast c' := by
  induction calls generalizing c res with
  | nil =>
    simp only [run, Option.some.injEq, Prod.mk.injEq] at h
    rw [← h.2]
    exact hh
  | cons x rest ih =>
    obtain ⟨r, c1, res', hc, hr, -⟩ := run_cons_some c c' x rest res h
    exact ih c1 res' (CacheInv_call c c1 x r hinv hc) (HiddenBeforeLast_call c c1 x r hinv hh hc)
      hr

/-- C18: in every cache reached from the empty cache by a sequence of calls in which no
`PushBitstream` fails its assertion, the queue of every order holds at most one
non-hidden entry, and a non-hidden entry is the last element of its queue. -/
theorem queue_visible_entry_last (calls : List CacheCall) (res : List CacheResult)
    (c : Cache) (o : Nat) (h : run Cache.initial calls = some (res, c)) :
    ((GetBitstreams c o).1.filter (fun e => !e.isHiden)).length ≤ 1 ∧
    (∀ i e, (GetBitstreams c o).1[i]? = some e → e.isHiden = false →
      i + 1 = (GetBitstreams c o).1.length) ∧
    (∀ e ∈ (GetBitstreams c o).1.dropLast, e.isHiden = true) := by
  have hh := HiddenBeforeLast_run calls Cache.initial c res CacheInv_initial
    HiddenBeforeLast_initial h o
  rw [GetBitstreams_fst]
  refine ⟨?_, ?_, hh⟩
  · rcases List.eq_nil_or_concat (queueOf c o) with hnil | ⟨L, b, hL⟩
    · rw [hnil]
      simp
    · rw [hL, List.concat_eq_append] at hh ⊢
      rw [List.dropLast_concat] at hh
      have hfil : L.filter (fun e => !e.isHiden) = [] := by
        rw [List.filter_eq_nil_iff]
        intro a ha
        simp [hh a ha]
      rw [List.filter_append, hfil, List.nil_append]
      exact List.length_filter_le _ _
  · intro i e hi hvis
    have hlt : i < (queueOf c o).length := by
      obtain ⟨hlt, -⟩ := List.getElem?_eq_some.1 hi
      exact hlt
    by_contra hne
    have hdl : (queueOf c o).dropLast[i]? = some e := by
      rw [List.getElem?_dropLast, if_pos (by omega), hi]
    have hmem : e ∈ (queueOf c o).dropLast := List.mem_iff_getElem?.2 ⟨i, hdl⟩
    rw [hh e hmem] at hvis
    cases hvis

/-- Witness of C18: a hidden and then a non-hidden entry pushed for order 3. -/
theorem queue_visible_entry_last_witness :
    ((GetBitstreams (Cache.mk [(3, [⟨3, 10, 1, true⟩, ⟨3, 20, 2, false⟩])]
        [(3, true)]) 3).1.filter (fun e => !e.isHiden)).length ≤ 1 :=
  (queue_visible_entry_last
    [.PushBitstream 3 ⟨3, 10, 1, true⟩, .PushBitstream 3 ⟨3, 20, 2, false⟩] [.done, .done]
    (Cache.mk [(3, [⟨3, 10, 1, true⟩, ⟨3, 20, 2, false⟩])] [(3, true)]) 3 rfl).1

/-- C20: `PeekCachedSize` adds up in an `mfxU32`: for every queue stored for an order its
result is the sum of the `BsDataLength` of the entries reduced modulo 2^32, and it is the
sum itself whenever that is below 2^32. -/
theorem PeekCachedSize_mod (c : Cache) (o : Nat) (queue : List CachedBitstream)
    (h : StdMap.find c.m_cachedBitstream o = some queue) :
    PeekCachedSize c o = (queue.map CachedBitstream.BsDataLength).sum % 4294967296 ∧
    ((queue.map CachedBitstream.BsDataLength).sum < 4294967296 →
      PeekCachedSize c o = (queue.map CachedBitstream.BsDataLength).sum) ∧
    PeekCachedSize c o < 4294967296 := by
  have hq : queueOf c o = queue := by
    unfold queueOf
    rw [h]
    rfl
  have hsum : PeekCachedSize c o = (queue.map CachedBitstream.BsDataLength).sum % 4294967296 := by
    rw [PeekCachedSize_eq, hq]
    rfl
  refine ⟨hsum, ?_, ?_⟩
  · intro hlt
    rw [hsum, Nat.mod_eq_of_lt hlt]
  · rw [hsum]
    exact Nat.mod_lt _ (by norm_num)

/-- Witness of C20: entries of 4294967295 and 2 bytes add up to 1 modulo 2^32. -/
theorem PeekCachedSize_mod_witness :
    PeekCachedSize (Cache.mk [(0, [⟨0, 4294967295, 1, true⟩, ⟨0, 2, 2, true⟩])]
        [(0, false)]) 0 = 1 :=
  ((PeekCachedSize_mod (Cache.mk [(0, [⟨0, 4294967295, 1, true⟩, ⟨0, 2, 2, true⟩])]
    [(0, false)]) 0 [⟨0, 4294967295, 1, true⟩, ⟨0, 2, 2, true⟩] rfl).1).trans (by decide)

/-! ## Selectors and task movement -/

theorem find_if_loop_eq (l : TTaskList) (cond : StorageRW → Bool) :
    ∀ n first, first + n = l.length →
      find_if_loop l cond n first = first + (l.drop first).findIdx cond := by
  intro n
  induction n with
  | zero =>
    intro first h
    have hd : l.drop first = [] := List.drop_eq_nil_of_le (by omega)
    simp [find_if_loop, hd]
  | succ n ih =>
    intro first h
    have hlt : first < l.length := by omega
    have hget : l.get? first = some l[first] := by
      rw [List.get?_eq_getElem?]
      exact List.getElem?_eq_getElem hlt
    have hd : l.drop first = l[first] :: l.drop (first + 1) := List.drop_eq_getElem_cons hlt
    rw [hd, List.findIdx_cons]
    simp only [find_if_loop, hget]
    cases hc : cond l[first] with
    | true => simp
    | false =>
      rw [ih (first + 1) (by omega)]
      simp
      omega

theorem SimpleCheck_eq_findIdx (l : TTaskList) (cond : StorageRW → Bool) :
    SimpleCheck cond l 0 l.length = l.findIdx cond := by
  unfold SimpleCheck find_if
  rw [find_if_loop_eq l cond (l.length - 0) 0 (by omega)]
  simp

/-- C15: applied to the begin and the end of a task list, `SimpleCheck(cond)` returns the
position of the first task in list order that satisfies `cond`, and the end exactly when
no task of the list satisfies `cond`; `FixedTask(t)` is `SimpleCheck` of "is the object
`t`", so for a list of distinct objects it returns the position of `t` when `t` is in the
list, and the end when it is not. -/
theorem SimpleCheck_first_match (l : TTaskList) (cond : StorageRW → Bool) :
    SimpleCheck cond l 0 l.length ≤ l.length ∧
    (∀ i task, i < SimpleCheck cond l 0 l.length → l[i]? = some task → cond task = false) ∧
    (SimpleCheck cond l 0 l.length < l.length →
      ∃ task, l[SimpleCheck cond l 0 l.length]? = some task ∧ cond task = true) ∧
    (SimpleCheck cond l 0 l.length = l.length ↔ ∀ task ∈ l, cond task = false) ∧
    (∀ t, FixedTask t = SimpleCheck (fun b => decide (b.addr = t.addr))) ∧
    (∀ t i, (l.map StorageRW.addr).Nodup → l[i]? = some t →
      FixedTask t l 0 l.length = i) ∧
    (∀ t, (∀ b ∈ l, b.addr ≠ t.addr) → FixedTask t l 0 l.length = l.length) := by
  have hfirst : ∀ (p : StorageRW → Bool) i task, i < l.findIdx p → l[i]? = some task →
      p task = false := by
    intro p i task hi hget
    obtain ⟨hlt, hel⟩ := List.getElem?_eq_some.1 hget
    have := List.not_of_lt_findIdx hi
    rw [hel] at this
    exact this
  refine ⟨?_, ?_, ?_, ?_, fun _ => rfl, ?_, ?_⟩
  · rw [SimpleCheck_eq_findIdx]
    exact List.findIdx_le_length cond
  · rw [SimpleCheck_eq_findIdx]
    exact hfirst cond
  · rw [SimpleCheck_eq_findIdx]
    intro hlt
    exact ⟨l[l.findIdx cond], List.getElem?_eq_getElem hlt, List.findIdx_getElem⟩
  · rw [SimpleCheck_eq_findIdx]
    exact List.findIdx_eq_length
  · intro t i hnd hget
    unfold FixedTask
    rw [SimpleCheck_eq_findIdx]
    obtain ⟨hlt, hel⟩ := List.getElem?_eq_some.1 hget
    have hle : l.findIdx (fun b => decide (b.addr = t.addr)) ≤ i := by
      by_contra hgt
      have := hfirst (fun b => decide (b.addr = t.addr)) i t (by omega) hget
      simp at this
    have hlt' : l.findIdx (fun b => decide (b.addr = t.addr)) < l.length := by omega
    have hp : (fun b : StorageRW => decide (b.addr = t.addr))
        l[l.findIdx (fun b => decide (b.addr = t.addr))] = true :=
      @List.findIdx_getElem _ (fun b => decide (b.addr = t.addr)) l hlt'
    simp only [decide_eq_true_eq] at hp
    have hi' : i < (l.map StorageRW.addr).length := by simpa using hlt
    have hj' : l.findIdx (fun b => decide (b.addr = t.addr)) < (l.map StorageRW.addr).length := by
      simpa using hlt'
    have heq : (l.map StorageRW.addr)[l.findIdx (fun b => decide (b.addr = t.addr))] =
        (l.map StorageRW.addr)[i] := by
      rw [List.getElem_map, List.getElem_map, hp, hel]
    exact (hnd.getElem_inj_iff).1 heq
  · intro t hnot
    unfold FixedTask
    rw [SimpleCheck_eq_findIdx, List.findIdx_eq_length]
    intro b hb
    simp [hnot b hb]

/-- Witness of C15: in a list of three tasks `FixedTask` finds the second one at
position 1, and a `SimpleCheck` that no task satisfies returns the end, 3. -/
theorem SimpleCheck_first_match_witness :
    FixedTask ⟨200, 8⟩ [⟨100, 7⟩, ⟨200, 8⟩, ⟨300, 9⟩] 0 3 = 1 ∧
    SimpleCheck (fun b => decide (b.payload = 5)) [⟨100, 7⟩, ⟨200, 8⟩, ⟨300, 9⟩] 0 3 = 3 :=
  have h := SimpleCheck_first_match [⟨100, 7⟩, ⟨200, 8⟩, ⟨300, 9⟩]
    (fun b => decide (b.payload = 5))
  ⟨h.2.2.2.2.2.1 ⟨200, 8⟩ 1 (by decide) (by decide), h.2.2.2.1.2 (by decide)⟩

/-- C11: for every `moveTask` standing for `TaskManager::MoveTask`, every position `from`,
selector and insertion point, `MoveTaskForward(from, which, where)` is the call
`MoveTask(from, from + 1, which, where)`, the second argument being passed as an
`mfxU16`: same result and same state afterwards, also with both default arguments
(`FirstTask`, `EndTask`); so for a registered id `s`, `MoveTaskForward(Stage(s))` moves
into the position `NextStage(s)`. -/
theorem MoveTaskForward_eq_MoveTask {σ ρ : Type}
    (moveTask : Nat → Nat → TFnGetTask → TFnGetTask → σ → ρ × σ)
    (fromStage : Nat) (which whereFn : TFnGetTask) (st : σ) :
    MoveTaskForward moveTask fromStage which whereFn st =
      moveTask fromStage ((fromStage + 1) % 65536) which whereFn st ∧
    (fromStage < 65535 → MoveTaskForward moveTask fromStage which whereFn st =
      moveTask fromStage (fromStage + 1) which whereFn st) ∧
    MoveTaskForward_defaults moveTask fromStage st =
      MoveTask_defaults moveTask fromStage ((fromStage + 1) % 65536) st ∧
    MoveTaskForward_defaults moveTask fromStage st =
      MoveTaskForward moveTask fromStage FirstTask EndTask st ∧
    (∀ (m : StdMap Nat) (s p : Nat), (Stage m s).1 = some p →
      ∃ q, (NextStage m s).1 = some q ∧
        MoveTaskForward moveTask p which whereFn st = moveTask p q which whereFn st) := by
  refine ⟨rfl, ?_, rfl, rfl, ?_⟩
  · intro h
    unfold MoveTaskForward
    rw [Nat.mod_eq_of_lt (by unfold U16; omega)]
  · intro m s p hs
    rw [Stage_fst] at hs
    refine ⟨(p + 1) % U16, ?_, rfl⟩
    rw [NextStage_fst, hs]
    rfl

/-- Witness of C11 with the modelled `MoveTask`: moving forward from position 3, the
position of `S_SUBMIT` in the initial table, is `MoveTask(3, 4)`. -/
theorem MoveTaskForward_eq_MoveTask_witness :
    MoveTaskForward MoveTask 3 FirstTask EndTask [[], [], [], [⟨100, 7⟩], [], [], []] =
      MoveTask 3 (3 + 1) FirstTask EndTask [[], [], [], [⟨100, 7⟩], [], [], []] :=
  (MoveTaskForward_eq_MoveTask MoveTask 3 FirstTask EndTask
    [[], [], [], [⟨100, 7⟩], [], [], []]).2.1 (by decide)

/-- C12: on the modelled `MoveTask`, for a bucket `from` inside `m_stages`: a selector that
returns the end of that bucket leaves every bucket as it is and the result is null; a
selector that returns the place of a task removes that one task from `from`, inserts that
one task into `to` at the place `where` picks, returns it, and leaves the order of the
other tasks and every other bucket unchanged. This holds for `to` different from `from`,
and for `to = from`, where the task is taken out of the bucket and put back into it at
the place `where` picks among the remaining tasks, so that the bucket keeps its tasks. -/
theorem MoveTask_contract (m_stages : List TTaskList) (fromStage toStage : Nat)
    (which whereFn : TFnGetTask) (source : TTaskList)
    (hsrc : m_stages[fromStage]? = some source) :
    (which source 0 source.length = source.length →
      MoveTask fromStage toStage which whereFn m_stages = (none, m_stages)) ∧
    (∀ task target, source[which source 0 source.length]? = some task →
      fromStage ≠ toStage → m_stages[toStage]? = some target →
      (MoveTask fromStage toStage which whereFn m_stages).1 = some task ∧
      (MoveTask fromStage toStage which whereFn m_stages).2[fromStage]? =
        some (source.take (which source 0 source.length) ++
          source.drop (which source 0 source.length + 1)) ∧
      (MoveTask fromStage toStage which whereFn m_stages).2[toStage]? =
        some (target.take (whereFn target 0 target.length) ++
          task :: target.drop (whereFn target 0 target.length)) ∧
      (∀ b, b ≠ fromStage → b ≠ toStage →
        (MoveTask fromStage toStage which whereFn m_stages).2[b]? = m_stages[b]?) ∧
      (MoveTask fromStage toStage which whereFn m_stages).2.length = m_stages.length ∧
      source = source.take (which source 0 source.length) ++
        task :: source.drop (which source 0 source.length + 1) ∧
      (source.take (which source 0 source.length) ++
        source.drop (which source 0 source.length + 1)).length + 1 = source.length ∧
      (target.take (whereFn target 0 target.length) ++
        task :: target.drop (whereFn target 0 target.length)).length = target.length + 1) ∧
    (∀ task rest, source[which source 0 source.length]? = some task → fromStage = toStage →
      rest = source.take (which source 0 source.length) ++
        source.drop (which source 0 source.length + 1) →
      (MoveTask fromStage toStage which whereFn m_stages).1 = some task ∧
      (MoveTask fromStage toStage which whereFn m_stages).2[fromStage]? =
        some (rest.take (whereFn rest 0 rest.length) ++
          task :: rest.drop (whereFn rest 0 rest.length)) ∧
      (∀ b, b ≠ fromStage →
        (MoveTask fromStage toStage which whereFn m_stages).2[b]? = m_stages[b]?) ∧
      (MoveTask fromStage toStage which whereFn m_stages).2.length = m_stages.length ∧
      source = source.take (which source 0 source.length) ++
        task :: source.drop (which source 0 source.length + 1) ∧
      (rest.take (whereFn rest 0 rest.length) ++
        task :: rest.drop (whereFn rest 0 rest.length)).length = source.length ∧
      (rest.take (whereFn rest 0 rest.length) ++
        task :: rest.drop (whereFn rest 0 rest.length)).Perm source) := by
  have hfrom : fromStage < m_stages.length := (List.getElem?_eq_some.1 hsrc).1
  have hgetD : m_stages.getD fromStage [] = source := by
    rw [List.getD_eq_getElem?_getD, hsrc]
    rfl
  refine ⟨?_, ?_, ?_⟩
  · intro hend
    have hnone : source.get? (which source 0 source.length) = none := by
      rw [hend, List.get?_eq_getElem?]
      exact List.getElem?_eq_none (le_refl _)
    simp only [MoveTask, hgetD, hnone]
  · intro task target htask hne htgt
    have hto : toStage < m_stages.length := (List.getElem?_eq_some.1 htgt).1
    have hit : which source 0 source.length < source.length :=
      (List.getElem?_eq_some.1 htask).1
    have hsome : source.get? (which source 0 source.length) = some task := by
      rw [List.get?_eq_getElem?]
      exact htask
    have htgt' : (m_stages.set fromStage (source.take (which source 0 source.length) ++
        source.drop (which source 0 source.length + 1))).getD toStage [] = target := by
      rw [List.getD_eq_getElem?_getD, List.getElem?_set_ne hne, htgt]
      rfl
    have hres : MoveTask fromStage toStage which whereFn m_stages =
        (some task, (m_stages.set fromStage (source.take (which source 0 source.length) ++
          source.drop (which source 0 source.length + 1))).set toStage
            (target.take (whereFn target 0 target.length) ++
              task :: target.drop (whereFn target 0 target.length))) := by
      simp only [MoveTask, hgetD, hsome, htgt']
    rw [hres]
    have hsplit : source = source.take (which source 0 source.length) ++
        task :: source.drop (which source 0 source.length + 1) := by
      have hd := List.drop_eq_getElem_cons hit
      have hel : source[which source 0 source.length] = task :=
        (List.getElem?_eq_some.1 htask).2
      rw [hel] at hd
      rw [← hd, List.take_append_drop]
    refine ⟨rfl, ?_, ?_, ?_, ?_, hsplit, ?_, ?_⟩
    · show (List.set (List.set m_stages fromStage _) toStage _)[fromStage]? = _
      rw [List.getElem?_set_ne (Ne.symm hne), List.getElem?_set_self hfrom]
    · show (List.set (List.set m_stages fromStage _) toStage _)[toStage]? = _
      rw [List.getElem?_set_self (by rw [List.length_set]; exact hto)]
    · intro b hb1 hb2
      show (List.set (List.set m_stages fromStage _) toStage _)[b]? = _
      rw [List.getElem?_set_ne (Ne.symm hb2), List.getElem?_set_ne (Ne.symm hb1)]
    · show (List.set (List.set m_stages fromStage _) toStage _).length = _
      rw [List.length_set, List.length_set]
    · have hlen := congrArg List.length hsplit
      simp only [List.length_append, List.length_cons] at hlen ⊢
      omega
    · have hlen := congrArg List.length (List.take_append_drop (whereFn target 0 target.length)
        target)
      simp only [List.length_append, List.length_cons] at hlen ⊢
      omega
  · intro task rest htask heq hrest'
    subst heq
    have hrest := hrest'.symm
    have hit : which source 0 source.length < source.length :=
      (List.getElem?_eq_some.1 htask).1
    have hsome : source.get? (which source 0 source.length) = some task := by
      rw [List.get?_eq_getElem?]
      exact htask
    have hsplit : source = source.take (which source 0 source.length) ++
        task :: source.drop (which source 0 source.length + 1) := by
      have hd := List.drop_eq_getElem_cons hit
      have hel : source[which source 0 source.length] = task :=
        (List.getElem?_eq_some.1 htask).2
      rw [hel] at hd
      rw [← hd, List.take_append_drop]
    have htgt' : (m_stages.set fromStage rest).getD fromStage [] = rest := by
      rw [List.getD_eq_getElem?_getD, List.getElem?_set_self hfrom]
      rfl
    have hres : MoveTask fromStage fromStage which whereFn m_stages =
        (some task, (m_stages.set fromStage rest).set fromStage
          (rest.take (whereFn rest 0 rest.length) ++
            task :: rest.drop (whereFn rest 0 rest.length))) := by
      simp only [MoveTask, hgetD, hsome, hrest, htgt']
    rw [hres]
    have hperm1 : (rest.take (whereFn rest 0 rest.length) ++
        task :: rest.drop (whereFn rest 0 rest.length)).Perm (task :: rest) := by
      have := @List.perm_middle _ task (rest.take (whereFn rest 0 rest.length))
        (rest.drop (whereFn rest 0 rest.length))
      rw [List.take_append_drop] at this
      exact this
    have hperm2 : source.Perm (task :: rest) := by
      have := @List.perm_middle _ task (source.take (which source 0 source.length))
        (source.drop (which source 0 source.length + 1))
      rw [hrest, ← hsplit] at this
      exact this
    refine ⟨rfl, ?_, ?_, ?_, hsplit, ?_, hperm1.trans hperm2.symm⟩
    · show (List.set (List.set m_stages fromStage _) fromStage _)[fromStage]? = _
      rw [List.getElem?_set_self (by rw [List.length_set]; exact hfrom)]
    · intro b hb
      show (List.set (List.set m_stages fromStage _) fromStage _)[b]? = _
      rw [List.getElem?_set_ne (Ne.symm hb), List.getElem?_set_ne (Ne.symm hb)]
    · show (List.set (List.set m_stages fromStage _) fromStage _).length = _
      rw [List.length_set, List.length_set]
    · exact (hperm1.trans hperm2.symm).length_eq

/-- Witness of C12: the first task of bucket 0 is moved to the end of bucket 1, and
with `to = from` the first task of bucket 0 is moved to the end of bucket 0. -/
theorem MoveTask_contract_witness :
    (MoveTask 0 1 FirstTask EndTask [[⟨100, 7⟩, ⟨200, 8⟩], [⟨300, 9⟩]]).1 = some ⟨100, 7⟩ ∧
    (MoveTask 0 1 FirstTask EndTask [[⟨100, 7⟩, ⟨200, 8⟩], [⟨300, 9⟩]]).2[1]? =
      some [⟨300, 9⟩, ⟨100, 7⟩] ∧
    (MoveTask 0 0 FirstTask EndTask [[⟨100, 7⟩, ⟨200, 8⟩], [⟨300, 9⟩]]).2[0]? =
      some [⟨200, 8⟩, ⟨100, 7⟩] ∧
    (MoveTask 0 0 FirstTask EndTask [[⟨100, 7⟩, ⟨200, 8⟩], [⟨300, 9⟩]]).2[1]? =
      some [⟨300, 9⟩] :=
  have h := (MoveTask_contract [[⟨100, 7⟩, ⟨200, 8⟩], [⟨300, 9⟩]] 0 1 FirstTask EndTask
    [⟨100, 7⟩, ⟨200, 8⟩] rfl).2.1 ⟨100, 7⟩ [⟨300, 9⟩] rfl (by decide) rfl
  have g := (MoveTask_contract [[⟨100, 7⟩, ⟨200, 8⟩], [⟨300, 9⟩]] 0 0 FirstTask EndTask
    [⟨100, 7⟩, ⟨200, 8⟩] rfl).2.2 ⟨100, 7⟩ [⟨200, 8⟩] rfl rfl rfl
  ⟨h.1, h.2.2.1, g.2.1, g.2.2.1 1 (by decide)⟩

end MfxEncodeHW
